import Mathlib

/-!
# Eastwood inter-proxy core: a shallow embedding

This file embeds, in Lean 4, the parts of the Eastwood proxy pair that the
verified properties below speak about:

* the ordered outbox reassembler thread (`eastwood/non_blocking_io.py`,
  `OutboxHandlerThread.run`);
* the poem build/parse path of the link protocol
  (`eastwood/protocols/ew_protocol.py`, `send_buffered_packets` and
  `parse_packet_recv_poem`);
* the external-side connection counter
  (`eastwood/external_proxy/external.py`);
* the serverbound handshake rewrite on the internal side
  (`eastwood/internal_proxy/external.py`, `packet_send_handshake`);
* the parallel compression and AES pipelines (`eastwood/plasma.py`),
  including the Khaki container used by the compressor;
* the chunk-cache module (`eastwood/modules/chunk_cacher.py`);
* the internal-side link authentication gate (modelled from the spec; see
  the doc comment on `authStep`).

Bytes are modelled as `List Nat` (each entry a byte value `0..255`); machine
integers are `Nat`/`Int` with explicit wrap-around where the source wraps.
Fallible code returns `Option` (a `none` models a Python exception escaping
the translated fragment).  The low-level Minecraft buffer primitives
(varints, strings, uuids, length-prefixed packets, `struct` packs) are an
external dependency of the source (quarry); they are modelled here from
their documented wire contract, which the spec treats as a data dependency.
-/

namespace Eastwood

/-- A byte string: a list of byte values. -/
abbrev Bytes := List Nat

/-! ## Integer byte encodings (`int.to_bytes` / `struct` contracts) -/

/-- Little-endian unsigned encoding of `i` on `s` bytes
(Python `i.to_bytes(s, byteorder='little')` for `0 ≤ i < 2^(8*s)`). -/
def natToLE : Nat → Nat → Bytes
  | 0, _ => []
  | s + 1, i => i % 256 :: natToLE s (i / 256)

/-- Little-endian unsigned decoding (Python
`int.from_bytes(b, byteorder='little')`). -/
def leToNat : Bytes → Nat
  | [] => 0
  | b :: rest => b + 256 * leToNat rest

/-- Big-endian unsigned encoding of `i` on `s` bytes
(the `struct '>'` convention used by the quarry buffer `pack` calls). -/
def natToBE (s i : Nat) : Bytes := (natToLE s i).reverse

/-- Big-endian unsigned decoding. -/
def beToNat (b : Bytes) : Nat := leToNat b.reverse

theorem natToLE_length (s i : Nat) : (natToLE s i).length = s := by
  induction s generalizing i with
  | zero => rfl
  | succ k ih => simp [natToLE, ih]

theorem leToNat_natToLE (s i : Nat) (h : i < 2 ^ (8 * s)) :
    leToNat (natToLE s i) = i := by
  induction s generalizing i with
  | zero =>
    simp only [Nat.mul_zero, pow_zero, Nat.lt_one_iff] at h
    simp [natToLE, leToNat, h]
  | succ k ih =>
    have hdiv : i / 256 < 2 ^ (8 * k) := by
      have h8 : (2 : Nat) ^ (8 * (k + 1)) = 2 ^ (8 * k) * 256 := by
        rw [Nat.mul_succ, pow_add]; norm_num

      rw [Nat.div_lt_iff_lt_mul (by norm_num : (0:Nat) < 256)]
      omega
    simp only [natToLE, leToNat, ih _ hdiv]
    omega

theorem natToBE_length (s i : Nat) : (natToBE s i).length = s := by
  simp [natToBE, natToLE_length]

theorem beToNat_natToBE (s i : Nat) (h : i < 2 ^ (8 * s)) :
    beToNat (natToBE s i) = i := by
  simp [natToBE, beToNat, leToNat_natToLE s i h]

/-! ## Minecraft-style varints (LEB128)

quarry `pack_varint` / `unpack_varint`.  For non-negative values below
`2^31` (the only values the embedded code produces) the wire bytes are the
standard little-endian base-128 groups with a continuation bit. -/

/-- LEB128 encoding of a natural number. -/
def packVarint (n : Nat) : Bytes :=
  if h : n < 128 then [n] else (n % 128 + 128) :: packVarint (n / 128)
termination_by n
decreasing_by
  exact Nat.div_lt_self (by omega) (by norm_num)

/-- LEB128 decoding: returns the value and the remaining bytes, `none` on a
buffer underrun. -/
def unpackVarint : Bytes → Option (Nat × Bytes)
  | [] => none
  | b :: rest =>
    if b < 128 then some (b, rest)
    else
      match unpackVarint rest with
      | some (v, r) => some (b % 128 + 128 * v, r)
      | none => none

theorem unpackVarint_packVarint (n : Nat) (rest : Bytes) :
    unpackVarint (packVarint n ++ rest) = some (n, rest) := by
  induction n using packVarint.induct with
  | case1 n h =>
    rw [packVarint]
    simp [h, unpackVarint]
  | case2 n h ih =>
    rw [packVarint]
    simp only [h, dite_false, List.cons_append, unpackVarint]
    have hb : ¬ (n % 128 + 128 < 128) := by omega
    simp only [hb, if_false, ih]
    have : n % 128 + 128 * (n / 128) = n := by
      have := Nat.mod_add_div n 128
      omega
    simp [Nat.add_mod_left, this]

/-! ## Length-prefixed fields (quarry buffer contract) -/

/-- Read exactly `n` bytes, underrun otherwise. -/
def unpackBytes (n : Nat) (l : Bytes) : Option (Bytes × Bytes) :=
  if n ≤ l.length then some (l.take n, l.drop n) else none

theorem unpackBytes_append (b rest : Bytes) :
    unpackBytes b.length (b ++ rest) = some (b, rest) := by
  simp [unpackBytes, List.take_append, List.drop_append]

/-- quarry `pack_packet`: varint length prefix followed by the payload. -/
def packPacket (b : Bytes) : Bytes := packVarint b.length ++ b

/-- quarry `unpack_packet`: read a varint length, then that many bytes. -/
def unpackPacket (l : Bytes) : Option (Bytes × Bytes) :=
  match unpackVarint l with
  | none => none
  | some (n, r) => unpackBytes n r

theorem unpackPacket_packPacket (b rest : Bytes) :
    unpackPacket (packPacket b ++ rest) = some (b, rest) := by
  simp [unpackPacket, packPacket, unpackVarint_packVarint, unpackBytes_append]

/-- quarry `pack_string`: varint byte length then the UTF-8 bytes. -/
def packString (s : Bytes) : Bytes := packVarint s.length ++ s

/-- quarry `unpack_string`. -/
def unpackString (l : Bytes) : Option (Bytes × Bytes) :=
  match unpackVarint l with
  | none => none
  | some (n, r) => unpackBytes n r

theorem unpackString_packString (s rest : Bytes) :
    unpackString (packString s ++ rest) = some (s, rest) := by
  simp [unpackString, packString, unpackVarint_packVarint, unpackBytes_append]

/-- quarry `pack_uuid`: a UUID travels as 16 raw bytes. -/
def packUuid (u : Bytes) : Bytes := u

/-- quarry `unpack_uuid`: read 16 raw bytes. -/
def unpackUuid (l : Bytes) : Option (Bytes × Bytes) := unpackBytes 16 l

theorem unpackUuid_append (u rest : Bytes) (h : u.length = 16) :
    unpackUuid (packUuid u ++ rest) = some (u, rest) := by
  simpa [unpackUuid, packUuid, h] using unpackBytes_append u rest

/-- quarry `pack("H", ...)`: unsigned 16-bit big-endian. -/
def packU16 (n : Nat) : Bytes := natToBE 2 n

/-- quarry `unpack("H")`. -/
def unpackU16 (l : Bytes) : Option (Nat × Bytes) :=
  match unpackBytes 2 l with
  | none => none
  | some (b, r) => some (beToNat b, r)

theorem unpackU16_packU16 (n : Nat) (rest : Bytes) (h : n < 65536) :
    unpackU16 (packU16 n ++ rest) = some (n, rest) := by
  have hl : (natToBE 2 n).length = 2 := natToBE_length 2 n
  have := unpackBytes_append (natToBE 2 n) rest
  rw [hl] at this
  simp only [unpackU16, packU16, this]
  rw [beToNat_natToBE 2 n (by norm_num; omega)]

/-- Signed 32-bit big-endian two's-complement encoding
(quarry `pack("i", ...)`). -/
def packI32 (i : Int) : Bytes := natToBE 4 (i % 2 ^ 32).toNat

/-- Signed 32-bit big-endian decode (quarry `unpack("i")`). -/
def unpackI32 (l : Bytes) : Option (Int × Bytes) :=
  match unpackBytes 4 l with
  | none => none
  | some (b, r) =>
    let u := beToNat b
    some (if u < 2 ^ 31 then (u : Int) else (u : Int) - 2 ^ 32, r)

theorem unpackI32_packI32 (i : Int) (rest : Bytes)
    (hlo : -(2 ^ 31) ≤ i) (hhi : i < 2 ^ 31) :
    unpackI32 (packI32 i ++ rest) = some (i, rest) := by
  have hl : (natToBE 4 (i % 2 ^ 32).toNat).length = 4 := natToBE_length _ _
  have happ := unpackBytes_append (natToBE 4 (i % 2 ^ 32).toNat) rest
  rw [hl] at happ
  simp only [unpackI32, packI32, happ]
  have hmod : (0:Int) ≤ i % 2 ^ 32 := Int.emod_nonneg i (by norm_num)
  have hmlt : i % 2 ^ 32 < 2 ^ 32 := Int.emod_lt_of_pos i (by norm_num)
  have hnat : ((i % 2 ^ 32).toNat : Int) = i % 2 ^ 32 := Int.toNat_of_nonneg hmod
  have hbe : beToNat (natToBE 4 (i % 2 ^ 32).toNat) = (i % 2 ^ 32).toNat := by
    apply beToNat_natToBE
    have : ((i % 2 ^ 32).toNat : Int) < 2 ^ 32 := by rw [hnat]; exact hmlt
    norm_num at this ⊢
    omega
  rw [hbe]
  rcases le_or_lt 0 i with hpos | hneg
  · have hv : i % 2 ^ 32 = i := by omega
    have hu : (i % 2 ^ 32).toNat < 2 ^ 31 := by omega
    simp only [hu, if_true, Option.some.injEq, Prod.mk.injEq]
    exact ⟨by omega, trivial⟩
  · have hv : i % 2 ^ 32 = i + 2 ^ 32 := by omega
    have hu : ¬ (i % 2 ^ 32).toNat < 2 ^ 31 := by omega
    simp only [hu, if_false, Option.some.injEq, Prod.mk.injEq]
    exact ⟨by omega, trivial⟩

/-! ## Ordered outbox reassembler (`eastwood/non_blocking_io.py`)

`OutboxHandlerThread.run` pulls `(index, data, args, kwargs)` tuples from its
queue.  `wait_list` is the pending map, `index` the release cursor,
`running`/thread-liveness is modelled by `stopped` (the bare `return`
statements in `run` terminate the thread).  A falsy `data` (worker failure
`None`, or empty bytes) is skipped but its index is still consumed. -/

structure OutboxState where
  waitList : List (Nat × Bytes)
  index : Nat
  released : List Bytes
  stopped : Bool
deriving DecidableEq, Repr

/-- `self.wait_list[i]` lookup. -/
def lookupWait (i : Nat) : List (Nat × Bytes) → Option Bytes
  | [] => none
  | (j, d) :: rest => if j = i then some d else lookupWait i rest

/-- `del self.wait_list[i]`. -/
def eraseWait (i : Nat) : List (Nat × Bytes) → List (Nat × Bytes)
  | [] => []
  | (j, d) :: rest => if j = i then rest else (j, d) :: eraseWait i rest

/-- The inner `while True` drain loop of `OutboxHandlerThread.run`: pop
contiguous waiters starting at the cursor, releasing non-falsy data.  The
fuel bounds the iteration count; each successful lookup erases its entry, so
`waitList.length` fuel is enough to reach the `KeyError` exit. -/
def drainWaitList : Nat → OutboxState → OutboxState
  | 0, st => st
  | fuel + 1, st =>
    match lookupWait st.index st.waitList with
    | none => st
    | some d =>
      drainWaitList fuel
        { st with
          waitList := eraseWait st.index st.waitList
          released := if d ≠ [] then st.released ++ [d] else st.released
          index := st.index + 1 }

/-- One `queue.get` iteration of `OutboxHandlerThread.run`
(`eastwood/non_blocking_io.py` lines 100-130).  When the popped tuple's
index is not the cursor, the source parks it in `wait_list` and then
executes `return`, which terminates the thread: modelled by `stopped`.
A stopped thread consumes no further queue items. -/
def outboxStep (st : OutboxState) (p : Nat × Bytes) : OutboxState :=
  if st.stopped then st
  else if p.1 ≠ st.index then
    { st with waitList := (p.1, p.2) :: eraseWait p.1 st.waitList, stopped := true }
  else
    let st1 :=
      { st with
        released := if p.2 ≠ [] then st.released ++ [p.2] else st.released
        index := st.index + 1 }
    drainWaitList st1.waitList.length st1

/-- The initial thread state of `OutboxHandlerThread`. -/
def outboxInit : OutboxState := ⟨[], 0, [], false⟩

/-- Run the outbox handler over a completion arrival sequence. -/
def outboxRun (arrivals : List (Nat × Bytes)) : OutboxState :=
  arrivals.foldl outboxStep outboxInit

/-- C1: the ordered outbox reassembler does NOT release blobs in index order
for every arrival order.  On the completion sequence `(1,b1), (0,b0)` —
indices 0 and 1 each exactly once, out of order — `OutboxHandlerThread.run`
parks `(1,b1)` in `wait_list` and then executes `return`, terminating the
thread: nothing is ever released.  The same completions arriving in order
release `b0, b1`, so shuffling the arrival order changes the released
sequence, refuting the claim (the comments "Packet is supposed to be sent
after one being processed" and "wait for next get" show the `return` is a
slip for `continue`). -/
theorem c1_outbox_out_of_order_releases_nothing :
    (outboxRun [(1, [1]), (0, [0])]).released = [] ∧
    (outboxRun [(1, [1]), (0, [0])]).stopped = true ∧
    (outboxRun [(0, [0]), (1, [1])]).released = [[0], [1]] := by
  decide

/-! ## External-side connection counter (`eastwood/external_proxy/external.py`) -/

/-- `ExternalProxyExternalProtocol.connectionMade` line 29:
`self.factory.num_connections += 1`. -/
def connectionMadeCounter (numConnections : Nat) : Nat := numConnections + 1

/-- `connectionMade` line 30 admission check:
`if self.factory.num_connections > self.factory.max_connections`. -/
def overLimit (numConnections maxConnections : Nat) : Bool :=
  maxConnections < numConnections

/-- `ExternalProxyExternalProtocol.connectionLost` line 44: the source reads
`self.factory.num_connections += 1` — an increment, despite the comment
"Subtract from conn limit". -/
def connectionLostCounter (numConnections : Nat) : Nat := numConnections + 1

/-- C4: with `player_limit = 2` and two connections open, a third TCP accept
drives `num_connections` to 3 (over the limit, so the socket is kicked), and
its disconnect then drives the counter to 4 via `connectionLostCounter` —
not back to 2 as the claim (and the spec) state.  The code increments on
close where its own comment says subtract; the spec's design notes flag this
exact typo. -/
theorem c4_num_connections_does_not_return_to_two :
    overLimit (connectionMadeCounter 2) 2 = true ∧
    connectionLostCounter (connectionMadeCounter 2) = 4 ∧
    connectionLostCounter (connectionMadeCounter 2) ≠ 2 := by
  decide

/-! ## Explosion duplicate-suppression hash input
(`eastwood/modules/chunk_cacher.py`, `packet_send_explosion`) -/

/-- `packet_send_explosion` line 184 passes
`buff.buff[:len(buff.buff)-32*3]` to `is_duplicate`: the packet bytes minus
their trailing `32*3 = 96` bytes (Python's clamped negative slice agrees
with truncated `Nat` subtraction). -/
def explosionHashBytes (b : Bytes) : Bytes := b.take (b.length - 32 * 3)

/-- The hash input the spec prescribes for `explosion`: the packet bytes
minus the trailing 12 bytes of player motion (three 4-byte floats). -/
def explosionHashBytesSpec (b : Bytes) : Bytes := b.take (b.length - 12)

/-- `ChunkCacher.is_duplicate` (lines 284-298): fingerprint the data with a
128-bit hash, report membership in the per-dimension `processed_packets`
list, and record first sightings.  The hash function itself (mmh3) is an
external dependency and is passed as a parameter. -/
def is_duplicate (hash : Bytes → Nat) (processed : List Nat) (data : Bytes) :
    Bool × List Nat :=
  let compHash := hash data
  if compHash ∈ processed then (true, processed)
  else (false, processed ++ [compHash])

/-- C9: the explosion fingerprint is computed over the packet bytes minus
the trailing **96** bytes (`32*3`), not minus the trailing 12 bytes of
player motion.  Witnessed on two 100-byte explosion packets that agree on
their last 12 bytes but differ at offset 50 (inside a block-change record):
`explosionHashBytes` gives them the same fingerprint input, so the second is
suppressed as a duplicate, while the spec's 12-byte rule
(`explosionHashBytesSpec`) distinguishes them.  This contradicts the
source's own comment that only the trailing player data is to be ignored. -/
theorem c9_explosion_hash_input_drops_96_bytes :
    explosionHashBytes (List.replicate 100 0) =
      explosionHashBytes (List.replicate 50 0 ++ 7 :: List.replicate 49 0) ∧
    explosionHashBytesSpec (List.replicate 100 0) ≠
      explosionHashBytesSpec (List.replicate 50 0 ++ 7 :: List.replicate 49 0) ∧
    (List.replicate 100 0 : Bytes).drop (100 - 12) =
      (List.replicate 50 0 ++ 7 :: List.replicate 49 0 : Bytes).drop (100 - 12) ∧
    ∀ hash : Bytes → Nat,
      (is_duplicate hash
        [hash (explosionHashBytes (List.replicate 100 0))]
        (explosionHashBytes (List.replicate 50 0 ++ 7 :: List.replicate 49 0))).1 = true := by
  refine ⟨by decide, by decide, by decide, ?_⟩
  intro hash
  have h : explosionHashBytes (List.replicate 50 0 ++ 7 :: List.replicate 49 0) =
      explosionHashBytes (List.replicate 100 0) := by decide
  rw [h]
  simp [is_duplicate]

/-! ## Serverbound handshake rewrite
(`eastwood/internal_proxy/external.py`, `InternalProxyExternalModule.packet_send_handshake`) -/

/-- Minecraft protocol modes tracked per session. -/
inductive ProtocolMode
  | init
  | status
  | login
  | play
deriving DecidableEq, Repr

/-- `InternalProxyExternalModule.packet_send_handshake` (lines 28-60):
unpack `(protocol_version, true_ip, true_port, protocol_mode)` from the
serverbound handshake, rebuild the packet — preserving the original
host/port when `ip_forward` is set, substituting the configured
`internal.minecraft` address otherwise — send it, and set the session's
protocol mode (`status` for 1, `login` for 2; any other value leaves `mode`
unbound and raises `NameError`, modelled by `none`).  Returns the rewritten
packet bytes and the new mode. -/
def packet_send_handshake (ipForward : Bool) (mcHost : Bytes) (mcPort : Nat)
    (b : Bytes) : Option (Bytes × ProtocolMode) :=
  match unpackVarint b with
  | none => none
  | some (protocolVersion, r1) =>
    match unpackString r1 with
    | none => none
    | some (trueIp, r2) =>
      match unpackU16 r2 with
      | none => none
      | some (truePort, r3) =>
        match unpackVarint r3 with
        | none => none
        | some (protocolMode, _) =>
          match (if protocolMode = 1 then some ProtocolMode.status
                 else if protocolMode = 2 then some ProtocolMode.login
                 else none) with
          | none => none
          | some mode =>
            let newData :=
              packVarint protocolVersion ++
                (if ipForward then packString trueIp ++ packU16 truePort
                 else packString mcHost ++ packU16 mcPort) ++
                packVarint protocolMode
            some (newData, mode)

/-- Decode the four handshake fields
`(protocol_version, host, port, next_state)` from packet bytes. -/
def parseHandshake (b : Bytes) : Option (Nat × Bytes × Nat × Nat) :=
  match unpackVarint b with
  | none => none
  | some (pv, r1) =>
    match unpackString r1 with
    | none => none
    | some (host, r2) =>
      match unpackU16 r2 with
      | none => none
      | some (port, r3) =>
        match unpackVarint r3 with
        | none => none
        | some (ns, _) => some (pv, host, port, ns)

/-- C5: for every serverbound handshake, the internal proxy's rewrite
preserves the protocol version and next_state; with `ip_forwarding` false it
substitutes the configured `internal.minecraft` host and port, with
`ip_forwarding` true it preserves the original host and port; and the
session mode becomes `status` for next_state 1 and `login` for
next_state 2. -/
theorem c5_handshake_rewrite (ipForward : Bool) (mcHost : Bytes)
    (mcPort pv : Nat) (host : Bytes) (port ns : Nat)
    (hport : port < 65536) (hmcPort : mcPort < 65536) (hns : ns = 1 ∨ ns = 2) :
    packet_send_handshake ipForward mcHost mcPort
        (packVarint pv ++ packString host ++ packU16 port ++ packVarint ns) =
      some (packVarint pv ++
              (if ipForward then packString host ++ packU16 port
               else packString mcHost ++ packU16 mcPort) ++
              packVarint ns,
            if ns = 1 then ProtocolMode.status else ProtocolMode.login) ∧
    parseHandshake
        (packVarint pv ++
          (if ipForward then packString host ++ packU16 port
           else packString mcHost ++ packU16 mcPort) ++
          packVarint ns) =
      some (pv, (if ipForward then host else mcHost),
            (if ipForward then port else mcPort), ns) := by
  have hvnil : ∀ n : Nat, unpackVarint (packVarint n) = some (n, []) := by
    intro n
    simpa using unpackVarint_packVarint n []
  constructor
  · rcases hns with h | h <;> subst h <;>
      simp [packet_send_handshake, List.append_assoc, unpackVarint_packVarint,
        unpackString_packString, unpackU16_packU16, hvnil, hport, hmcPort]
  · rcases hns with h | h <;> subst h <;> cases ipForward <;>
      simp [parseHandshake, List.append_assoc, unpackVarint_packVarint,
        unpackString_packString, unpackU16_packU16, hvnil, hport, hmcPort]

/-- C5 witness: the spec's scenario S2 — `ip_forwarding=false`,
`internal.minecraft=10.0.0.5:25565`, handshake
`host="a.example", port=25500, next_state=2` — rewrites to
`host="10.0.0.5", port=25565, next_state=2` and the mode becomes `login`. -/
theorem c5_handshake_rewrite_witness :
    (25500 < 65536) ∧ (25565 < 65536) ∧ ((2:Nat) = 1 ∨ (2:Nat) = 2) ∧
    (packet_send_handshake false
        [49, 48, 46, 48, 46, 48, 46, 53] 25565
        (packVarint 498 ++
          packString [97, 46, 101, 120, 97, 109, 112, 108, 101] ++
          packU16 25500 ++ packVarint 2) =
      some (packVarint 498 ++
              (if false then
                packString [97, 46, 101, 120, 97, 109, 112, 108, 101] ++
                  packU16 25500
               else packString [49, 48, 46, 48, 46, 48, 46, 53] ++ packU16 25565) ++
              packVarint 2,
            if (2:Nat) = 1 then ProtocolMode.status else ProtocolMode.login)) :=
  ⟨by decide, by decide, by decide,
    (c5_handshake_rewrite false [49, 48, 46, 48, 46, 48, 46, 53] 25565 498
      [97, 46, 101, 120, 97, 109, 112, 108, 101] 25500 2
      (by decide) (by decide) (by decide)).1⟩

/-! ## Poem build and parse (`eastwood/protocols/ew_protocol.py`)

`EWProtocol.send_buffered_packets` drains the FIFO `input_buffer`.  Each
drained triple `(uuid, packet_name, packet_data)` is encoded as
`varint(drain index) ∥ uuid ∥ pack_packet(pack_string(name) ∥ data)` and
appended to `poem[packet_name]` — a `defaultdict(bytes)`, so the wire body
is the concatenation of the per-name groups in first-occurrence order of
the names.  `EWProtocol.parse_packet_recv_poem` repeatedly decodes items
until a buffer underrun, stores them in a dict keyed by index, and
dispatches them sorted by index. -/

/-- An entry of the link factory's `input_buffer`:
`(uuid, packet_name, packet_data)`. -/
structure OutboundItem where
  uuid : Bytes
  name : Bytes
  data : Bytes
deriving DecidableEq, Repr

/-- The wire encoding of one drained item
(`send_buffered_packets` lines 180-186). -/
def encodeItem (i : Nat) (it : OutboundItem) : Bytes :=
  packVarint i ++ packUuid it.uuid ++ packPacket (packString it.name ++ it.data)

/-- The key-insertion order of the `poem` defaultdict: packet names in
order of first occurrence. -/
def namesInOrder (items : List OutboundItem) : List Bytes :=
  items.foldl (fun acc it => if it.name ∈ acc then acc else acc ++ [it.name]) []

/-- The poem body built by `send_buffered_packets`:
`b"".join(poem.values())`, i.e. the per-name groups (each the concatenation
of that name's encoded items in drain order) joined in first-occurrence
order of the names. -/
def poemBody (items : List OutboundItem) : Bytes :=
  (namesInOrder items).flatMap fun nm =>
    (items.enum.filter (fun p => p.2.name = nm)).flatMap fun p =>
      encodeItem p.1 p.2

/-- The item list the poem decodes to, still grouped by name. -/
def groupedEnum (items : List OutboundItem) : List (Nat × OutboundItem) :=
  (namesInOrder items).flatMap fun nm =>
    items.enum.filter (fun p => p.2.name = nm)

/-- One iteration of the `parse_packet_recv_poem` unpack loop (lines
209-214): varint index, 16-byte uuid, length-prefixed packet whose head is
the packed name (consumed and saved off, leaving the payload). -/
def parseOneItem (b : Bytes) : Option ((Nat × OutboundItem) × Bytes) :=
  match unpackVarint b with
  | none => none
  | some (index, r1) =>
    match unpackUuid r1 with
    | none => none
    | some (uuid, r2) =>
      match unpackPacket r2 with
      | none => none
      | some (pkt, r3) =>
        match unpackString pkt with
        | none => none
        | some (name, payload) => some ((index, ⟨uuid, name, payload⟩), r3)

theorem unpackVarint_shrink {l : Bytes} {v : Nat} {r : Bytes}
    (h : unpackVarint l = some (v, r)) : r.length < l.length := by
  induction l generalizing v r with
  | nil => simp [unpackVarint] at h
  | cons b rest ih =>
    simp only [unpackVarint] at h
    by_cases hb : b < 128
    · simp only [hb, if_true, Option.some.injEq, Prod.mk.injEq] at h
      simp [← h.2]
    · simp only [hb, if_false] at h
      cases hrec : unpackVarint rest with
      | none => simp [hrec] at h
      | some pr =>
        obtain ⟨v', r'⟩ := pr
        simp only [hrec, Option.some.injEq, Prod.mk.injEq] at h
        obtain ⟨hval, hrst⟩ := h
        subst hrst
        have := ih hrec
        simp only [List.length_cons]
        omega

theorem unpackBytes_shrink {n : Nat} {l b r : Bytes}
    (h : unpackBytes n l = some (b, r)) : r.length ≤ l.length := by
  simp only [unpackBytes] at h
  split at h
  · simp only [Option.some.injEq, Prod.mk.injEq] at h
    rw [← h.2]
    simp
  · exact absurd h (by simp)

theorem unpackPacket_shrink {l b r : Bytes}
    (h : unpackPacket l = some (b, r)) : r.length ≤ l.length := by
  simp only [unpackPacket] at h
  cases hv : unpackVarint l with
  | none => simp [hv] at h
  | some pr =>
    obtain ⟨n, rst⟩ := pr
    simp only [hv] at h
    have h1 := unpackVarint_shrink hv
    have h2 := unpackBytes_shrink h
    omega

theorem parseOneItem_shrink {b : Bytes} {pr : (Nat × OutboundItem) × Bytes}
    (h : parseOneItem b = some pr) : pr.2.length < b.length := by
  simp only [parseOneItem] at h
  cases hv : unpackVarint b with
  | none => simp [hv] at h
  | some p1 =>
    obtain ⟨index, r1⟩ := p1
    simp only [hv] at h
    cases hu : unpackUuid r1 with
    | none => simp [hu] at h
    | some p2 =>
      obtain ⟨uuid, r2⟩ := p2
      simp only [hu] at h
      cases hp : unpackPacket r2 with
      | none => simp [hp] at h
      | some p3 =>
        obtain ⟨pkt, r3⟩ := p3
        simp only [hp] at h
        cases hs : unpackString pkt with
        | none => simp [hs] at h
        | some p4 =>
          obtain ⟨name, payload⟩ := p4
          simp only [hs, Option.some.injEq] at h
          have h1 := unpackVarint_shrink hv
          have h2 := unpackBytes_shrink hu
          have h3 := unpackPacket_shrink hp
          rw [← h]
          simp only
          omega

/-- The `while True` unpack loop of `parse_packet_recv_poem`: decode items
until a `BufferUnderrun` stops the loop. -/
def parseItems (b : Bytes) : List (Nat × OutboundItem) :=
  match h : parseOneItem b with
  | none => []
  | some pr => pr.1 :: parseItems pr.2
termination_by b.length
decreasing_by exact parseOneItem_shrink h

theorem parseItems_eq_nil {b : Bytes} (hb : parseOneItem b = none) :
    parseItems b = [] := by
  rw [parseItems.eq_def, hb]

theorem parseItems_eq_cons {b : Bytes} {pr : (Nat × OutboundItem) × Bytes}
    (hb : parseOneItem b = some pr) :
    parseItems b = pr.1 :: parseItems pr.2 := by
  rw [parseItems.eq_def, hb]

theorem parseOneItem_encodeItem (i : Nat) (it : OutboundItem) (rest : Bytes)
    (h : it.uuid.length = 16) :
    parseOneItem (encodeItem i it ++ rest) = some ((i, it), rest) := by
  simp only [parseOneItem, encodeItem, List.append_assoc,
    unpackVarint_packVarint, unpackUuid_append, h, unpackPacket_packPacket,
    unpackString_packString]

/-- Decoding a concatenation of encoded items recovers exactly those items
in concatenation order. -/
theorem parseItems_encode (l : List (Nat × OutboundItem))
    (h : ∀ p ∈ l, p.2.uuid.length = 16) :
    parseItems (l.flatMap fun p => encodeItem p.1 p.2) = l := by
  induction l with
  | nil =>
    apply parseItems_eq_nil
    simp [parseOneItem, unpackVarint]
  | cons p rest ih =>
    have hp : p.2.uuid.length = 16 := h p (by simp)
    have hrest : ∀ q ∈ rest, q.2.uuid.length = 16 := fun q hq => h q (by simp [hq])
    rw [List.flatMap_cons,
      parseItems_eq_cons (parseOneItem_encodeItem p.1 p.2 _ hp), ih hrest]

/-- `unordered_data[index] = value`: Python dict assignment — overwrite in
place when the key exists, append otherwise. -/
def dictSet (d : List (Nat × OutboundItem)) (k : Nat) (v : OutboundItem) :
    List (Nat × OutboundItem) :=
  if d.any (fun p => p.1 = k) then
    d.map (fun p => if p.1 = k then (k, v) else p)
  else d ++ [(k, v)]

/-- Fill `unordered_data` from the decoded items in decode order. -/
def buildDict (l : List (Nat × OutboundItem)) : List (Nat × OutboundItem) :=
  l.foldl (fun d p => dictSet d p.1 p.2) []

theorem buildDict_aux (l d : List (Nat × OutboundItem))
    (hnd : (l.map Prod.fst).Nodup)
    (hdisj : ∀ p ∈ d, ∀ q ∈ l, p.1 ≠ q.1) :
    l.foldl (fun d p => dictSet d p.1 p.2) d = d ++ l := by
  induction l generalizing d with
  | nil => simp
  | cons p rest ih =>
    have hany : d.any (fun q => q.1 = p.1) = false := by
      rw [Bool.eq_false_iff]
      intro hc
      rw [List.any_eq_true] at hc
      obtain ⟨q, hq, hqe⟩ := hc
      exact hdisj q hq p (by simp) (by simpa using hqe)
    have hset : dictSet d p.1 p.2 = d ++ [(p.1, p.2)] := by
      simp only [dictSet, hany, Bool.false_eq_true, if_false]
    simp only [List.foldl_cons, hset]
    rw [ih]
    · simp
    · simpa using hnd.of_cons
    · intro a ha q hq
      rcases List.mem_append.mp ha with h1 | h1
      · exact hdisj a h1 q (by simp [hq])
      · simp only [List.mem_singleton] at h1
        subst h1
        simp only [List.map_cons, List.nodup_cons, List.mem_map] at hnd
        intro hek
        exact hnd.1 ⟨q, hq, hek.symm⟩

/-- With pairwise-distinct indices the dict holds exactly the decoded list
(in decode order; the subsequent sort makes the order immaterial). -/
theorem buildDict_nodup (l : List (Nat × OutboundItem))
    (hnd : (l.map Prod.fst).Nodup) : buildDict l = l := by
  simpa using buildDict_aux l [] hnd (by simp)

/-- `sorted(unordered_data.items(), key=lambda kv: kv[0])`: sort the dict
items by index (Python's sort is a stable mergesort; on the
pairwise-distinct indices produced here any sort agrees with it). -/
def sortByIndex (l : List (Nat × OutboundItem)) : List (Nat × OutboundItem) :=
  l.mergeSort (fun a b => a.1 ≤ b.1)

/-- The receiver's dispatch order for a poem body: decode, key by index,
then sort by index.  `parse_packet_recv_poem` walks this list and forwards
each `(uuid, name, payload)` to the session `uuid` in list order. -/
def poemDispatchOrder (b : Bytes) : List (Nat × OutboundItem) :=
  sortByIndex (buildDict (parseItems b))

theorem sortByIndex_eq_enum (l : List (Nat × OutboundItem))
    (items : List OutboundItem) (hperm : l.Perm items.enum) :
    sortByIndex l = items.enum := by
  have hpermS : (sortByIndex l).Perm items.enum :=
    (List.mergeSort_perm l _).trans hperm
  have hle : List.Pairwise (fun a b : Nat × OutboundItem => a.1 ≤ b.1)
      (sortByIndex l) := by
    have := @List.sorted_mergeSort (Nat × OutboundItem)
      (fun a b => decide (a.1 ≤ b.1))
      (fun a b c hab hbc => by
        simp only [decide_eq_true_eq] at *
        omega)
      (fun a b => by
        simp only [Bool.or_eq_true, decide_eq_true_eq]
        omega) l
    exact this.imp (by simp only [decide_eq_true_eq]; exact id)
  have hnd : ((sortByIndex l).map Prod.fst).Nodup := by
    have h1 : ((sortByIndex l).map Prod.fst).Perm (items.enum.map Prod.fst) :=
      hpermS.map Prod.fst
    rw [List.enum_map_fst] at h1
    exact (List.Perm.nodup_iff h1).mpr (List.nodup_range _)
  have hne : List.Pairwise (fun a b : Nat × OutboundItem => a.1 ≠ b.1)
      (sortByIndex l) := List.pairwise_map.mp hnd
  have hlt : List.Sorted (fun a b : Nat × OutboundItem => a.1 < b.1)
      (sortByIndex l) :=
    (hle.and hne).imp fun h => lt_of_le_of_ne h.1 h.2
  have hltEnum : List.Sorted (fun a b : Nat × OutboundItem => a.1 < b.1)
      items.enum := by
    have h1 : List.Pairwise (· < ·) (items.enum.map Prod.fst) := by
      rw [List.enum_map_fst]
      exact List.pairwise_lt_range _
    exact List.pairwise_map.mp h1
  haveI : IsAntisymm (Nat × OutboundItem) (fun a b => a.1 < b.1) :=
    ⟨fun a b h1 h2 => absurd (lt_trans h1 h2) (lt_irrefl _)⟩
  exact List.eq_of_perm_of_sorted hpermS hlt hltEnum

theorem filter_flatMap_perm (ns : List Bytes) (l : List (Nat × OutboundItem))
    (hnd : ns.Nodup) (hall : ∀ p ∈ l, p.2.name ∈ ns) :
    (ns.flatMap fun nm => l.filter (fun p => p.2.name = nm)).Perm l := by
  induction ns generalizing l with
  | nil =>
    have : l = [] := List.eq_nil_iff_forall_not_mem.mpr fun p hp => by
      simpa using hall p hp
    simp [this]
  | cons nm rest ih =>
    rw [List.flatMap_cons]
    have hstep : ∀ nm' ∈ rest,
        l.filter (fun p => p.2.name = nm') =
          (l.filter (fun p => ¬ p.2.name = nm)).filter
            (fun p => p.2.name = nm') := by
      intro nm' hnm'
      have hne : nm' ≠ nm := by
        rintro rfl
        exact (List.nodup_cons.mp hnd).1 hnm'
      rw [List.filter_filter]
      apply List.filter_congr
      intro p _
      by_cases hp : p.2.name = nm'
      · simp [hp, hne]
      · simp [hp]
    have hbind : (rest.flatMap fun nm' => l.filter (fun p => p.2.name = nm')) =
        rest.flatMap fun nm' =>
          (l.filter (fun p => ¬ p.2.name = nm)).filter
            (fun p => p.2.name = nm') := by
      apply List.flatMap_congr
      intro nm' hnm'
      exact hstep nm' hnm'
    rw [hbind]
    have hih : (rest.flatMap fun nm' =>
        (l.filter (fun p => ¬ p.2.name = nm)).filter
          (fun p => p.2.name = nm')).Perm
        (l.filter (fun p => ¬ p.2.name = nm)) := by
      apply ih
      · exact (List.nodup_cons.mp hnd).2
      · intro p hp
        rw [List.mem_filter] at hp
        have := hall p hp.1
        simp only [List.mem_cons] at this
        rcases this with h1 | h1
        · exact absurd (by simpa using h1) (by simpa using hp.2)
        · exact h1
    refine (List.Perm.append_left _ hih).trans ?_
    have heq : (l.filter fun p => ¬ p.2.name = nm) =
        l.filter (fun p => !(decide (p.2.name = nm))) := by
      apply List.filter_congr
      intro x _
      simp [decide_not]
    rw [heq]
    exact List.filter_append_perm _ l

theorem mem_namesInOrder_aux (items : List OutboundItem) (acc : List Bytes)
    (nm : Bytes) (h : nm ∈ acc) :
    nm ∈ items.foldl
      (fun acc it => if it.name ∈ acc then acc else acc ++ [it.name]) acc := by
  induction items generalizing acc with
  | nil => simpa using h
  | cons it rest ih =>
    simp only [List.foldl_cons]
    by_cases hm : it.name ∈ acc
    · simp only [hm, if_true]
      exact ih acc h
    · simp only [hm, if_false]
      exact ih _ (by simp [h])

theorem name_mem_foldl (items : List OutboundItem) (acc : List Bytes)
    (it : OutboundItem) (h : it ∈ items) :
    it.name ∈ items.foldl
      (fun acc x => if x.name ∈ acc then acc else acc ++ [x.name]) acc := by
  induction items generalizing acc with
  | nil => simp at h
  | cons hd rest ih =>
    simp only [List.foldl_cons]
    rcases List.mem_cons.mp h with h1 | h1
    · subst h1
      by_cases hm : it.name ∈ acc
      · simp only [hm, if_true]
        exact mem_namesInOrder_aux rest acc it.name hm
      · simp only [hm, if_false]
        exact mem_namesInOrder_aux rest _ it.name (by simp)
    · by_cases hm : hd.name ∈ acc
      · simp only [hm, if_true]
        exact ih acc h1
      · simp only [hm, if_false]
        exact ih _ h1

theorem name_mem_namesInOrder (items : List OutboundItem) (it : OutboundItem)
    (h : it ∈ items) : it.name ∈ namesInOrder items :=
  name_mem_foldl items [] it h

theorem namesInOrder_nodup_aux (items : List OutboundItem) (acc : List Bytes)
    (h : acc.Nodup) :
    (items.foldl
      (fun acc it => if it.name ∈ acc then acc else acc ++ [it.name]) acc).Nodup := by
  induction items generalizing acc with
  | nil => simpa using h
  | cons it rest ih =>
    simp only [List.foldl_cons]
    by_cases hm : it.name ∈ acc
    · simp only [hm, if_true]
      exact ih acc h
    · simp only [hm, if_false]
      apply ih
      simp [List.nodup_append, h, hm]

theorem namesInOrder_nodup (items : List OutboundItem) :
    (namesInOrder items).Nodup :=
  namesInOrder_nodup_aux items [] (by simp)

theorem snd_mem_of_mem_enum {items : List OutboundItem}
    {p : Nat × OutboundItem} (h : p ∈ items.enum) : p.2 ∈ items := by
  have h1 : p.2 ∈ items.enum.map Prod.snd := List.mem_map_of_mem Prod.snd h
  simpa [List.enum_map_snd] using h1

/-- C2: draining a FIFO of `OutboundItem`s into one poem and decoding it on
the receiving side dispatches the items in exactly the original enqueue
order, even though `send_buffered_packets` groups the wire body by packet
name: each item carries its drain index and `parse_packet_recv_poem` sorts
the decoded items by that index before dispatching each one to its
session. -/
theorem c2_poem_dispatch_preserves_enqueue_order
    (items : List OutboundItem)
    (h : ∀ it ∈ items, it.uuid.length = 16) :
    poemDispatchOrder (poemBody items) = items.enum := by
  have hperm : (groupedEnum items).Perm items.enum := by
    apply filter_flatMap_perm
    · exact namesInOrder_nodup items
    · intro p hp
      exact name_mem_namesInOrder items p.2 (snd_mem_of_mem_enum hp)
  have hbody : poemBody items =
      (groupedEnum items).flatMap fun p => encodeItem p.1 p.2 := by
    simp only [poemBody, groupedEnum, List.flatMap_assoc]
  have hparse : parseItems (poemBody items) = groupedEnum items := by
    rw [hbody]
    apply parseItems_encode
    intro p hp
    exact h p.2 (snd_mem_of_mem_enum (hperm.mem_iff.mp hp))
  have hnd : ((groupedEnum items).map Prod.fst).Nodup := by
    have h1 : ((groupedEnum items).map Prod.fst).Perm (items.enum.map Prod.fst) :=
      hperm.map Prod.fst
    rw [List.enum_map_fst] at h1
    exact (List.Perm.nodup_iff h1).mpr (List.nodup_range _)
  rw [poemDispatchOrder, hparse, buildDict_nodup _ hnd]
  exact sortByIndex_eq_enum _ _ hperm

/-- C2 witness: three buffered items — two sharing the packet name
`[10]`, one named `[11]` in between, distinct uuids — are dispatched as
items 0, 1, 2 in enqueue order despite the on-wire grouping by name. -/
theorem c2_poem_dispatch_preserves_enqueue_order_witness :
    (∀ it ∈ [OutboundItem.mk (List.replicate 16 1) [10] [100],
             OutboundItem.mk (List.replicate 16 2) [11] [101],
             OutboundItem.mk (List.replicate 16 3) [10] [102]],
        it.uuid.length = 16) ∧
    poemDispatchOrder
        (poemBody [OutboundItem.mk (List.replicate 16 1) [10] [100],
                   OutboundItem.mk (List.replicate 16 2) [11] [101],
                   OutboundItem.mk (List.replicate 16 3) [10] [102]]) =
      ([OutboundItem.mk (List.replicate 16 1) [10] [100],
        OutboundItem.mk (List.replicate 16 2) [11] [101],
        OutboundItem.mk (List.replicate 16 3) [10] [102]]).enum :=
  ⟨by decide,
    c2_poem_dispatch_preserves_enqueue_order
      [OutboundItem.mk (List.replicate 16 1) [10] [100],
       OutboundItem.mk (List.replicate 16 2) [11] [101],
       OutboundItem.mk (List.replicate 16 3) [10] [102]]
      (by decide)⟩

/-! ## Internal-side link authentication gate

The external-proxy side of authentication is in
`eastwood/external_proxy/internal.py` (`ExternalProxyInternalModule.
connectionMade` hashes the password with `IteratedSaltedHash` and sends an
`auth` packet "otherwise packets will be dropped").  The internal-side
*validation* code of this repository is not under `src/`: `src`'s
`eastwood/ew_packet.py` stops at packet id 3 (no `auth`, no `toggle_chunk`)
and `eastwood/internal_proxy/internal.py` contains no authentication
handling (its `__init__` does not even pass `password`/`secret` through to
`EWProtocol`), while the spec's link-packet table and §4.5 describe both.
The receiving gate is therefore modelled from the spec below. -/

/-- `IteratedSaltedHash` (`eastwood/plasma.py` lines 864-876): iterate
`raw = sha512(raw + salt)`; the SHA-512 digest itself is an external
dependency and is passed as a parameter. -/
def iteratedSaltedHash (digest : Bytes → Bytes) :
    Nat → Bytes → Bytes → Bytes
  | 0, raw, _ => raw
  | n + 1, raw, salt => iteratedSaltedHash digest n (digest (raw ++ salt)) salt

/-- The link packets of the spec's §4.5 id table. -/
inductive LinkPacket
  | auth (hash salt : Bytes)
  | poem (body : Bytes)
  | addConn (uuid : Bytes)
  | deleteConn (uuid : Bytes)
  | releaseQueue (uuid : Bytes)
  | toggleChunk (dimension : Int) (key : Bytes)
deriving DecidableEq, Repr

/-- Does this packet validate as authentication against the configured
password (spec §4.5: hash must equal `IteratedSaltedHash(password, salt)`)? -/
def isValidAuth (digest : Bytes → Bytes) (iterations : Nat) (password : Bytes)
    (p : LinkPacket) : Bool :=
  match p with
  | .auth hash salt => hash = iteratedSaltedHash digest iterations password salt
  | _ => false

/-- Observable state of the internal proxy's link endpoint. -/
structure LinkAuthState where
  authenticated : Bool
  closed : Bool
  dispatchedPoems : List Bytes
deriving DecidableEq, Repr

/-- Modelled from the spec: the internal-side link authentication gate
(spec §4.5 "Authentication", absent from `src/`).  With a non-empty
password, every inbound packet before authentication is treated as an
`auth` candidate: a valid `(hash, salt)` pair marks the connection
authenticated, anything else closes the connection.  Only an authenticated
(or password-less) link dispatches poems; a closed link processes nothing
further. -/
def authStep (digest : Bytes → Bytes) (iterations : Nat) (password : Bytes)
    (st : LinkAuthState) (p : LinkPacket) : LinkAuthState :=
  if st.closed then st
  else if password = [] ∨ st.authenticated then
    match p with
    | .poem body => { st with dispatchedPoems := st.dispatchedPoems ++ [body] }
    | _ => st
  else if isValidAuth digest iterations password p then
    { st with authenticated := true }
  else
    { st with closed := true }

/-- Run the link endpoint over an inbound packet trace. -/
def authRun (digest : Bytes → Bytes) (iterations : Nat) (password : Bytes)
    (trace : List LinkPacket) : LinkAuthState :=
  trace.foldl (authStep digest iterations password)
    ⟨false, false, []⟩

theorem authStep_closed (digest : Bytes → Bytes) (iterations : Nat)
    (password : Bytes) (st : LinkAuthState) (p : LinkPacket)
    (h : st.closed = true) :
    authStep digest iterations password st p = st := by
  simp [authStep, h]

theorem authRun_closed_absorbs (digest : Bytes → Bytes) (iterations : Nat)
    (password : Bytes) (trace : List LinkPacket) (st : LinkAuthState)
    (h : st.closed = true) :
    trace.foldl (authStep digest iterations password) st = st := by
  induction trace with
  | nil => rfl
  | cons p rest ih =>
    simp [authStep_closed _ _ _ _ _ h, ih]

/-- C3 (spec-modelled): with a non-empty configured password, the internal
proxy's link endpoint never acts on non-auth link data received before a
valid auth packet.  (1) If the first inbound packet is not a valid auth,
the link is closed at once — unauthenticated, with no poem dispatched —
and everything after it is ignored.  (2) On any trace containing no valid
auth packet at all, no poem is ever dispatched. -/
theorem c3_no_poem_before_valid_auth (digest : Bytes → Bytes)
    (iterations : Nat) (password : Bytes) (hpw : password ≠ []) :
    (∀ (p : LinkPacket) (rest : List LinkPacket),
      isValidAuth digest iterations password p = false →
      authRun digest iterations password (p :: rest) =
        ⟨false, true, []⟩) ∧
    (∀ trace : List LinkPacket,
      (∀ p ∈ trace, isValidAuth digest iterations password p = false) →
      (authRun digest iterations password trace).dispatchedPoems = []) := by
  have key : ∀ (p : LinkPacket) (rest : List LinkPacket),
      isValidAuth digest iterations password p = false →
      authRun digest iterations password (p :: rest) = ⟨false, true, []⟩ := by
    intro p rest hp
    have hstep : authStep digest iterations password ⟨false, false, []⟩ p =
        ⟨false, true, []⟩ := by
      simp [authStep, hpw, hp]
    rw [authRun, List.foldl_cons, hstep]
    exact authRun_closed_absorbs _ _ _ rest _ rfl
  refine ⟨key, ?_⟩
  intro trace htrace
  rcases trace with _ | ⟨p, rest⟩
  · rfl
  · rw [key p rest (htrace p (by simp))]

/-- C3 witness: password `[1]`, a toy one-byte digest, two iterations; an
inbound `poem` arriving first (the spec's scenario S4, "external sends any
non-auth packet first") closes the link unauthenticated, with no poem
dispatched; and a trace with no valid auth dispatches nothing. -/
theorem c3_no_poem_before_valid_auth_witness :
    ([1] : Bytes) ≠ [] ∧
    (isValidAuth (fun b => b.take 1) 2 [1] (.poem [5]) = false ∧
      authRun (fun b => b.take 1) 2 [1] [.poem [5], .auth [9] [9]] =
        ⟨false, true, []⟩) :=
  ⟨by decide,
    by decide,
    ((c3_no_poem_before_valid_auth (fun b => b.take 1) 2 [1]
        (by decide)).1 (.poem [5]) [.auth [9] [9]] (by decide))⟩

/-! ## Plasma: shared chunking machinery (`eastwood/plasma.py`)

`_GlobalParallelCompressionInterface` and `ParallelAESInterface` both split
their input into per-worker chunks, wrap each worker's output in a 3-byte
little-endian length capsule (`SIZE_BYTES = 3`, `BYTE_ORDER = 'little'`),
and re-split capsules with the same `while len(input) > 0` loop. -/

/-- Python `int(round(a / b))`: float division then round-half-to-even.
(The exact rational value is rounded; the callers' operands are far below
the range where float rounding of `a / b` could differ.) -/
def pyRound (a b : Nat) : Nat :=
  let q := a / b
  let r := a % b
  if 2 * r < b then q
  else if b < 2 * r then q + 1
  else if q % 2 = 0 then q else q + 1

/-- `__chunks(l, n)`: successive `n`-sized slices.  `n = 0` is the
`range(..., 0)` `ValueError` case, which callers model before calling.
Structured as fuel recursion (each step consumes at least one byte, so
`l.length` fuel always reaches the end of the generator). -/
def chunkSplitF (fuel n : Nat) (l : Bytes) : List Bytes :=
  if l = [] then []
  else
    match fuel with
    | 0 => []
    | fuel + 1 =>
      if n = 0 then []
      else l.take n :: chunkSplitF fuel n (l.drop n)

/-- `__chunks(l, n)` with just enough fuel. -/
def chunkSplit (n : Nat) (l : Bytes) : List Bytes := chunkSplitF l.length n l

theorem chunkSplitF_nil (f n : Nat) : chunkSplitF f n [] = [] := by
  cases f <;> rfl

theorem chunkSplitF_fuel_irrelevant (f1 : Nat) :
    ∀ (f2 n : Nat) (l : Bytes), n ≠ 0 → l.length ≤ f1 → l.length ≤ f2 →
    chunkSplitF f1 n l = chunkSplitF f2 n l := by
  induction f1 with
  | zero =>
    intro f2 n l _ h1 _
    have : l = [] := by
      cases l with
      | nil => rfl
      | cons => simp at h1
    subst this
    simp [chunkSplitF_nil]
  | succ g1 ih =>
    intro f2 n l hn h1 h2
    by_cases hne : l = []
    · subst hne
      simp [chunkSplitF_nil]
    · have hpos : 0 < l.length := List.length_pos.mpr hne
      cases f2 with
      | zero => omega
      | succ g2 =>
        simp only [chunkSplitF, hne, if_false, hn]
        rw [ih g2 n (l.drop n) hn (by rw [List.length_drop]; omega)
          (by rw [List.length_drop]; omega)]

theorem chunkSplitF_flatten (fuel : Nat) :
    ∀ (n : Nat) (l : Bytes), n ≠ 0 → l.length ≤ fuel →
    (chunkSplitF fuel n l).flatten = l := by
  induction fuel with
  | zero =>
    intro n l _ h1
    have : l = [] := by
      cases l with
      | nil => rfl
      | cons => simp at h1
    subst this
    rfl
  | succ g ih =>
    intro n l hn h1
    by_cases hne : l = []
    · subst hne; rfl
    · have hpos : 0 < l.length := List.length_pos.mpr hne
      simp only [chunkSplitF, hne, if_false, hn, List.flatten_cons]
      rw [ih n (l.drop n) hn (by rw [List.length_drop]; omega)]
      exact List.take_append_drop n l

theorem chunkSplit_flatten (n : Nat) (hn : n ≠ 0) (l : Bytes) :
    (chunkSplit n l).flatten = l :=
  chunkSplitF_flatten l.length n l hn le_rfl

theorem chunkSplitF_mem (fuel : Nat) :
    ∀ (n : Nat) (l c : Bytes), c ∈ chunkSplitF fuel n l →
    c.length ≤ n ∧ c ≠ [] := by
  induction fuel with
  | zero =>
    intro n l c h
    by_cases hne : l = [] <;> simp [chunkSplitF, hne] at h
  | succ g ih =>
    intro n l c h
    by_cases hne : l = []
    · simp [chunkSplitF, hne] at h
    · by_cases hn : n = 0
      · simp [chunkSplitF, hne, hn] at h
      · simp only [chunkSplitF, hne, if_false, hn, List.mem_cons] at h
        rcases h with h | h
        · subst h
          refine ⟨by simpa using List.length_take_le n l, ?_⟩
          simp only [ne_eq, List.take_eq_nil_iff]
          push_neg
          exact ⟨hn, hne⟩
        · exact ih n (l.drop n) c h

theorem chunkSplit_mem (n : Nat) (l c : Bytes) (h : c ∈ chunkSplit n l) :
    c.length ≤ n ∧ c ≠ [] :=
  chunkSplitF_mem l.length n l c h

/-- Wrap each blob in a 3-byte little-endian length capsule and join
(`encapsulated_byte_func` / `__encapsulated_encryption`); `none` when a
capsule length overflows `to_bytes(3, ...)`. -/
def encapsulateAll : List Bytes → Option Bytes
  | [] => some []
  | c :: rest =>
    if c.length < 2 ^ 24 then
      match encapsulateAll rest with
      | some r => some (natToLE 3 c.length ++ c ++ r)
      | none => none
    else none

/-- The `while len(input) > 0` capsule re-splitting loop shared by
`_GlobalParallelCompressionInterface.decompress` and
`ParallelAESInterface.decrypt`: read a 3-byte little-endian length, slice
off that chunk, repeat.  Fuel recursion; each step consumes at least one
byte, so `l.length` fuel always reaches the loop's exit. -/
def parseCapsulesF (fuel : Nat) (l : Bytes) : List Bytes :=
  if l = [] then []
  else
    match fuel with
    | 0 => []
    | fuel + 1 =>
      let clen := leToNat (l.take 3)
      (l.drop 3).take clen :: parseCapsulesF fuel ((l.drop 3).drop clen)

/-- The capsule re-splitting loop with just enough fuel. -/
def parseCapsules (l : Bytes) : List Bytes := parseCapsulesF l.length l

theorem parseCapsulesF_nil (f : Nat) : parseCapsulesF f [] = [] := by
  cases f <;> rfl

theorem parseCapsulesF_fuel_irrelevant (f1 : Nat) :
    ∀ (f2 : Nat) (l : Bytes), l.length ≤ f1 → l.length ≤ f2 →
    parseCapsulesF f1 l = parseCapsulesF f2 l := by
  induction f1 with
  | zero =>
    intro f2 l h1 _
    have : l = [] := by
      cases l with
      | nil => rfl
      | cons => simp at h1
    subst this
    simp [parseCapsulesF_nil]
  | succ g1 ih =>
    intro f2 l h1 h2
    by_cases hne : l = []
    · subst hne
      simp [parseCapsulesF_nil]
    · have hpos : 0 < l.length := List.length_pos.mpr hne
      cases f2 with
      | zero => omega
      | succ g2 =>
        simp only [parseCapsulesF, hne, if_false]
        rw [ih g2 _ (by simp only [List.length_drop]; omega)
          (by simp only [List.length_drop]; omega)]

theorem parseCapsules_cons (c rest : Bytes) (h : c.length < 2 ^ 24) :
    parseCapsules (natToLE 3 c.length ++ c ++ rest) =
      c :: parseCapsules rest := by
  have hlen : (natToLE 3 c.length).length = 3 := natToLE_length 3 c.length
  have hne : natToLE 3 c.length ++ c ++ rest ≠ [] := by
    intro hc
    have := congrArg List.length hc
    simp [natToLE_length] at this
  have hfull : (natToLE 3 c.length ++ c ++ rest).length =
      (2 + c.length + rest.length) + 1 := by
    simp only [List.length_append, natToLE_length]
    omega
  rw [parseCapsules, hfull]
  simp only [parseCapsulesF, hne, if_false]
  rw [List.append_assoc, List.take_left' hlen, List.drop_left' hlen]
  rw [leToNat_natToLE 3 c.length (by norm_num at h ⊢; omega)]
  rw [List.take_left' rfl, List.drop_left' rfl]
  rw [parseCapsulesF_fuel_irrelevant (2 + c.length + rest.length) rest.length
    rest (by omega) le_rfl]
  rfl

theorem parseCapsules_encapsulateAll (chunks : List Bytes) (out : Bytes)
    (h : encapsulateAll chunks = some out) :
    parseCapsules out = chunks := by
  induction chunks generalizing out with
  | nil =>
    simp only [encapsulateAll, Option.some.injEq] at h
    rw [← h]
    rfl
  | cons c rest ih =>
    simp only [encapsulateAll] at h
    split at h
    · rename_i hlt
      cases hrec : encapsulateAll rest with
      | none => rw [hrec] at h; exact absurd h (by simp)
      | some r =>
        rw [hrec] at h
        simp only [Option.some.injEq] at h
        rw [← h, parseCapsules_cons c r hlt, ih r hrec]
    · exact absurd h (by simp)

/-! ## Parallel AES (`eastwood/plasma.py`, `_SingleThreadedAESCipher` and
`ParallelAESInterface`)

`_SingleThreadedAESCipher` uses the pycryptodome cipher in GCM mode, whose
encryption is counter-mode: ciphertext byte `j` is plaintext byte `j` XOR a
keystream byte determined by `(key, iv, j)`.  The keystream is the external
library's business and is a parameter here.  Crucially, `encrypt` returns
`iv + cipher.encrypt(raw)` and `decrypt` returns
`cipher.decrypt(enc[IV_SIZE:])`: `digest()` is never called, so no
authentication tag is appended, and `verify()` is never called, so nothing
is checked.  `AES.new` raises only when the nonce is empty, i.e. when a
capsule parsed out of the wire bytes is empty. -/

/-- Counter-mode XOR from stream position `i`. -/
def xorStreamFrom (ks : Nat → Nat) : Nat → Bytes → Bytes
  | _, [] => []
  | i, b :: rest => (b ^^^ ks i) :: xorStreamFrom ks (i + 1) rest

theorem xorStreamFrom_involution (ks : Nat → Nat) (i : Nat) (b : Bytes) :
    xorStreamFrom ks i (xorStreamFrom ks i b) = b := by
  induction b generalizing i with
  | nil => rfl
  | cons x rest ih =>
    simp only [xorStreamFrom, ih, List.cons.injEq, and_true]
    exact Nat.xor_cancel_right _ _

theorem xorStreamFrom_length (ks : Nat → Nat) (i : Nat) (b : Bytes) :
    (xorStreamFrom ks i b).length = b.length := by
  induction b generalizing i with
  | nil => rfl
  | cons x rest ih => simp [xorStreamFrom, ih]

/-- `_SingleThreadedAESCipher.encrypt`: fresh 12-byte IV, then
`iv + cipher.encrypt(raw)` — no tag. -/
def singleEncrypt (ks : Bytes → Bytes → Nat → Nat) (key iv raw : Bytes) :
    Bytes :=
  iv ++ xorStreamFrom (ks key iv) 0 raw

/-- `_SingleThreadedAESCipher.decrypt`: take `enc[:12]` as the IV and XOR
the rest back — no `verify`, so the only failure is `AES.new` rejecting an
empty nonce (empty input). -/
def singleDecrypt (ks : Bytes → Bytes → Nat → Nat) (key enc : Bytes) :
    Option Bytes :=
  if enc = [] then none
  else some (xorStreamFrom (ks key (enc.take 12)) 0 (enc.drop 12))

/-- The per-worker chunk size of `ParallelAESInterface.encrypt`:
`(lambda x: x if x != 0 else 1)(int(round(len(raw) / self.θ)))`. -/
def aesChunkSize (θ rawLen : Nat) : Nat :=
  let m := pyRound rawLen θ
  if m = 0 then 1 else m

/-- `ParallelAESInterface.encrypt`: chunk, encrypt each chunk under its own
fresh IV (the IV supply is indexed by chunk position), encapsulate, join. -/
def aesEncrypt (ks : Bytes → Bytes → Nat → Nat) (key : Bytes)
    (ivs : Nat → Bytes) (θ : Nat) (raw : Bytes) : Option Bytes :=
  let chunks := chunkSplit (aesChunkSize θ raw.length) raw
  encapsulateAll (chunks.enum.map fun p => singleEncrypt ks key (ivs p.1) p.2)

/-- `ParallelAESInterface.decrypt`: split capsules, decrypt each, join. -/
def aesDecrypt (ks : Bytes → Bytes → Nat → Nat) (key enc : Bytes) :
    Option Bytes :=
  match (parseCapsules enc).mapM (singleDecrypt ks key) with
  | none => none
  | some l => some l.flatten

theorem mapM_some_of_forall_some {α β : Type} (f : α → Option β)
    (l : List α) (h : ∀ x ∈ l, (f x).isSome) :
    ∃ out, l.mapM f = some out := by
  induction l with
  | nil => exact ⟨[], rfl⟩
  | cons x rest ih =>
    obtain ⟨y, hy⟩ := Option.isSome_iff_exists.mp (h x (by simp))
    obtain ⟨out, hout⟩ := ih fun z hz => h z (by simp [hz])
    exact ⟨y :: out, by rw [List.mapM_cons, hy, hout]; rfl⟩

/-- C10: the link cipher's decrypt performs no integrity check.  For every
keystream, key and ciphertext whose length-prefixed capsule structure is
intact (every parsed capsule non-empty — true of every encrypt output and
of any byte-tampered variant of it that keeps the capsule structure),
`ParallelAESInterface.decrypt` returns bytes without raising; and encrypt
appends no authentication tag (each capsule body is exactly
`12 IV bytes + one ciphertext byte per plaintext byte`), so there is
nothing to verify and a decrypt-failure (link-closing) branch is
unreachable for structurally well-formed input. -/
theorem c10_decrypt_never_verifies (ks : Bytes → Bytes → Nat → Nat)
    (key enc : Bytes)
    (hintact : ∀ c ∈ parseCapsules enc, c ≠ []) :
    (∃ out, aesDecrypt ks key enc = some out) ∧
    (∀ iv raw : Bytes,
      (singleEncrypt ks key iv raw).length = iv.length + raw.length) := by
  constructor
  · obtain ⟨out, hout⟩ := mapM_some_of_forall_some (singleDecrypt ks key)
      (parseCapsules enc)
      (fun c hc => by simp [singleDecrypt, hintact c hc])
    exact ⟨out.flatten, by rw [aesDecrypt, hout]⟩
  · intro iv raw
    simp [singleEncrypt, xorStreamFrom_length]

/-- C10 witness: the encryption of a one-byte plaintext under a concrete
keystream, with its last ciphertext byte tampered from `7` to `9`, still
has intact capsule structure and decrypts to bytes (the wrong bytes —
nothing detects the tampering). -/
theorem c10_decrypt_never_verifies_witness :
    (∀ c ∈ parseCapsules
        (natToLE 3 13 ++ (List.replicate 12 0 ++ [9])), c ≠ []) ∧
    (∃ out, aesDecrypt (fun _ _ _ => 0) [1]
        (natToLE 3 13 ++ (List.replicate 12 0 ++ [9])) = some out) ∧
    aesEncrypt (fun _ _ _ => 0) [1] (fun _ => List.replicate 12 0) 1 [7] =
      some (natToLE 3 13 ++ (List.replicate 12 0 ++ [7])) :=
  ⟨by decide,
    (c10_decrypt_never_verifies (fun _ _ _ => 0) [1]
      (natToLE 3 13 ++ (List.replicate 12 0 ++ [9])) (by decide)).1,
    by decide⟩

/-! ## Khaki container (`eastwood/plasma.py`, `Khaki` / `StaticKhaki`)

`compress` wraps its capsule stream as
`StaticKhaki.dumps({'compressed': result, 'exif': None}, compressed=False,
min_value_length=4)` and `decompress` reads it back with
`StaticKhaki.loads`.  The embedding covers the value shapes this pipeline
produces and consumes — dict, str, bytes, None (`exifdata` defaults to
False, so `exif` is always `None`); the remaining Khaki type tags (int,
float, bool, list, bignum) and the `compressed=True` zlib path are never
produced by `compress` and decode to `none` here. -/

/-- Python `int.from_bytes(b, 'little', signed=True)`
(`KhakiUtility.bytesToInt`); the empty string decodes to 0. -/
def leToInt (b : Bytes) : Int :=
  let u := leToNat b
  if (u : Int) < 2 ^ (8 * b.length - 1) then (u : Int)
  else (u : Int) - 2 ^ (8 * b.length)

/-- Khaki values of the shapes this pipeline uses. -/
inductive KhakiVal
  | kdict (entries : List (KhakiVal × KhakiVal))
  | kstr (s : Bytes)
  | kbytes (b : Bytes)
  | knone

mutual

/-- Structural equality of Khaki values (Python `==` on the decoded
primitives, used for dict key lookup). -/
def kvalBeq : KhakiVal → KhakiVal → Bool
  | .kdict l1, .kdict l2 => kvalListBeq l1 l2
  | .kstr s1, .kstr s2 => s1 == s2
  | .kbytes b1, .kbytes b2 => b1 == b2
  | .knone, .knone => true
  | _, _ => false

/-- Structural equality of Khaki dict entry lists. -/
def kvalListBeq :
    List (KhakiVal × KhakiVal) → List (KhakiVal × KhakiVal) → Bool
  | [], [] => true
  | (k1, v1) :: r1, (k2, v2) :: r2 =>
    kvalBeq k1 k2 && kvalBeq v1 v2 && kvalListBeq r1 r2
  | _ :: _, [] => false
  | [], _ :: _ => false

end

mutual

/-- `Khaki.from_bytes`: one leading meta byte is the value length width
`vlen`, the next is the type tag, the rest is the body. -/
def khakiFromBytes : Nat → Bytes → Option KhakiVal
  | 0, _ => none
  | fuel + 1, i =>
    let vlen := (leToInt (i.take 1)).toNat
    let typ := leToInt ((i.drop 1).take 1)
    let body := i.drop 2
    if typ = 7 then some .knone
    else if typ = 6 then some (.kbytes body)
    else if typ = 2 then some (.kstr body)
    else if typ = 0 then
      match khakiDictEntries fuel vlen body with
      | some entries => some (.kdict entries)
      | none => none
    else none

/-- The dict-entry loop of `Khaki.from_bytes` (type tag 0): read a
`vlen`-byte size, the key encoding, another size, the value encoding,
recurse on the rest. -/
def khakiDictEntries : Nat → Nat → Bytes → Option (List (KhakiVal × KhakiVal))
  | 0, _, i => if i = [] then some [] else none
  | fuel + 1, vlen, i =>
    if i = [] then some []
    else
      let ksize := (leToInt (i.take vlen)).toNat
      let kenc := (i.drop vlen).take ksize
      let i2 := (i.drop vlen).drop ksize
      let vsize := (leToInt (i2.take vlen)).toNat
      let venc := (i2.drop vlen).take vsize
      let i3 := (i2.drop vlen).drop vsize
      match khakiFromBytes fuel kenc, khakiFromBytes fuel venc,
            khakiDictEntries fuel vlen i3 with
      | some k, some v, some rest => some ((k, v) :: rest)
      | _, _, _ => none

end

/-- The UTF-8 bytes of `'compressed'`. -/
def utf8Compressed : Bytes := [99, 111, 109, 112, 114, 101, 115, 115, 101, 100]

/-- The UTF-8 bytes of `'exif'`. -/
def utf8Exif : Bytes := [101, 120, 105, 102]

/-- `Khaki.to_bytes('compressed', 4)`: vlen meta byte, str tag, UTF-8. -/
def khakiKeyCompressed : Bytes := 4 :: 2 :: utf8Compressed

/-- `Khaki.to_bytes('exif', 4)`. -/
def khakiKeyExif : Bytes := 4 :: 2 :: utf8Exif

/-- `Khaki.to_bytes(None, 4)`. -/
def khakiValNone : Bytes := [4, 7]

/-- `Khaki.to_bytes(b, 4)` for a bytes value. -/
def khakiValBytes (b : Bytes) : Bytes := 4 :: 6 :: b

/-- A dict-entry piece: 4-byte little-endian length then the encoding
(`intToBytes(len(x), vlen) + x` with `vlen = 4`; `to_bytes(4, signed=True)`
overflows for lengths ≥ 2^31, a bound the theorems carry). -/
def khakiSized (x : Bytes) : Bytes := natToLE 4 x.length ++ x

/-- `StaticKhaki.dumps({'compressed': result, 'exif': None},
compressed=False, min_value_length=4)` exactly as `compress` produces it:
uncompressed flag, vlen meta byte, dict tag, then the two sized
key/value pairs in insertion order. -/
def khakiDumpsCompressed (result : Bytes) : Bytes :=
  0 :: 4 :: 0 ::
    (khakiSized khakiKeyCompressed ++
      (khakiSized (khakiValBytes result) ++
        (khakiSized khakiKeyExif ++ (khakiSized khakiValNone ++ []))))

/-- `StaticKhaki.loads`: flag byte then `from_bytes` (flag `True` is the
zlib path, never produced by this compressor). -/
def khakiLoads (fuel : Nat) (i : Bytes) : Option KhakiVal :=
  match i with
  | [] => none
  | flag :: rest => if flag = 0 then khakiFromBytes fuel rest else none

/-- Python dict lookup over decoded entries (last duplicate wins). -/
def kdictGet (entries : List (KhakiVal × KhakiVal)) (key : KhakiVal) :
    Option KhakiVal :=
  entries.foldl (fun acc e => if kvalBeq e.1 key then some e.2 else acc) none

theorem leToInt_natToLE4 (n : Nat) (h : n < 2 ^ 31) :
    (leToInt (natToLE 4 n)).toNat = n := by
  have hu : leToNat (natToLE 4 n) = n :=
    leToNat_natToLE 4 n (by norm_num at h ⊢; omega)
  simp only [leToInt, hu, natToLE_length]
  norm_num at h ⊢
  rw [if_pos (by exact_mod_cast h)]
  simp

theorem khakiFromBytes_kstr (f : Nat) (s : Bytes) :
    khakiFromBytes (f + 1) (4 :: 2 :: s) = some (.kstr s) := by
  simp [khakiFromBytes, leToInt, leToNat]

theorem khakiFromBytes_kbytes (f : Nat) (b : Bytes) :
    khakiFromBytes (f + 1) (4 :: 6 :: b) = some (.kbytes b) := by
  simp [khakiFromBytes, leToInt, leToNat]

theorem khakiFromBytes_knone (f : Nat) :
    khakiFromBytes (f + 1) [4, 7] = some .knone := by
  simp [khakiFromBytes, leToInt, leToNat]

theorem khakiDictEntries_nil (f vlen : Nat) :
    khakiDictEntries f vlen [] = some [] := by
  cases f <;> rfl

theorem khakiDictEntries_cons (f : Nat) (kenc venc tail : Bytes)
    (k v : KhakiVal) (entries : List (KhakiVal × KhakiVal))
    (hkl : kenc.length < 2 ^ 31) (hvl : venc.length < 2 ^ 31)
    (hk : khakiFromBytes f kenc = some k)
    (hv : khakiFromBytes f venc = some v)
    (ht : khakiDictEntries f 4 tail = some entries) :
    khakiDictEntries (f + 1) 4
      (khakiSized kenc ++ (khakiSized venc ++ tail)) =
      some ((k, v) :: entries) := by
  have hlen4 : ∀ x : Bytes, (natToLE 4 x.length).length = 4 :=
    fun x => natToLE_length 4 x.length
  have hne : khakiSized kenc ++ (khakiSized venc ++ tail) ≠ [] := by
    intro hc
    have := congrArg List.length hc
    simp [khakiSized, natToLE_length] at this
  simp only [khakiDictEntries, hne, if_false, khakiSized, List.append_assoc]
  rw [List.take_left' (hlen4 kenc), List.drop_left' (hlen4 kenc),
    leToInt_natToLE4 _ hkl, List.take_left' rfl, List.drop_left' rfl]
  rw [List.take_left' (hlen4 venc), List.drop_left' (hlen4 venc),
    leToInt_natToLE4 _ hvl, List.take_left' rfl, List.drop_left' rfl]
  rw [hk, hv, ht]
  rw [if_neg (by
    intro hc
    have := congrArg List.length hc
    simp [natToLE_length] at this)]

theorem khakiLoads_zeroFlag (fuel : Nat) (rest : Bytes) :
    khakiLoads fuel (0 :: rest) = khakiFromBytes fuel rest := by
  simp [khakiLoads]

theorem khakiFromBytes_dict (m : Nat) (REST : Bytes) :
    khakiFromBytes (m + 4) (4 :: 0 :: REST) =
      match khakiDictEntries (m + 3) 4 REST with
      | some entries => some (.kdict entries)
      | none => none := by
  show khakiFromBytes ((m + 3) + 1) _ = _
  simp [khakiFromBytes, leToInt, leToNat]

theorem khaki_exifEntry (m : Nat) :
    khakiDictEntries ((m + 1) + 1) 4
      (khakiSized khakiKeyExif ++ (khakiSized khakiValNone ++ [])) =
      some [(.kstr utf8Exif, .knone)] := by
  apply khakiDictEntries_cons (m + 1) khakiKeyExif khakiValNone []
    (.kstr utf8Exif) .knone []
  · norm_num [khakiKeyExif, utf8Exif]
  · norm_num [khakiValNone]
  · exact khakiFromBytes_kstr m utf8Exif
  · exact khakiFromBytes_knone m
  · exact khakiDictEntries_nil (m + 1) 4

theorem khaki_bothEntries (m : Nat) (b : Bytes) (hb : b.length + 2 < 2 ^ 31) :
    khakiDictEntries ((m + 2) + 1) 4
      (khakiSized khakiKeyCompressed ++
        (khakiSized (khakiValBytes b) ++
          (khakiSized khakiKeyExif ++ (khakiSized khakiValNone ++ [])))) =
      some [(.kstr utf8Compressed, .kbytes b), (.kstr utf8Exif, .knone)] := by
  apply khakiDictEntries_cons (m + 2) khakiKeyCompressed (khakiValBytes b)
    (khakiSized khakiKeyExif ++ (khakiSized khakiValNone ++ []))
    (.kstr utf8Compressed) (.kbytes b) [(.kstr utf8Exif, .knone)]
  · norm_num [khakiKeyCompressed, utf8Compressed]
  · simpa [khakiValBytes] using hb
  · exact khakiFromBytes_kstr (m + 1) utf8Compressed
  · exact khakiFromBytes_kbytes (m + 1) b
  · exact khaki_exifEntry m

theorem khakiLoads_dumps (m : Nat) (b : Bytes) (hb : b.length + 2 < 2 ^ 31) :
    khakiLoads (m + 4) (khakiDumpsCompressed b) =
      some (.kdict [(.kstr utf8Compressed, .kbytes b),
                    (.kstr utf8Exif, .knone)]) := by
  rw [show khakiDumpsCompressed b = 0 :: (4 :: 0 ::
        (khakiSized khakiKeyCompressed ++
          (khakiSized (khakiValBytes b) ++
            (khakiSized khakiKeyExif ++ (khakiSized khakiValNone ++ []))))) from rfl,
    khakiLoads_zeroFlag, khakiFromBytes_dict, show m + 3 = (m + 2) + 1 from rfl,
    khaki_bothEntries m b hb]

/-! ## The compression pipeline
(`eastwood/plasma.py`, `_GlobalParallelCompressionInterface`,
exported as `ParallelCompressionInterface`)

`__p_compress` splits the input into `int(round(len(input) / self.nodes))`
sized chunks (`bz2chunk` defaults to False); consuming `__chunks(input, 0)`
raises `ValueError: range() arg 3 must not be zero` — this happens for the
empty string and for inputs short enough that the rounded per-worker size
is zero.  Each chunk is compressed by the zstd engine (external; the
`cf`/`df` parameters) and encapsulated; `compress` then wraps the capsule
stream in the Khaki container; `decompress` reverses the steps.  `nodes`
(`cpu_count()`) is nonzero wherever Python would not have raised
`ZeroDivisionError`. -/

/-- `__p_compress`: chunk, compress each chunk at the chosen level,
encapsulate, join; `none` models the `range(..., 0)` `ValueError`. -/
def pCompress (cf : Nat → Bytes → Bytes) (lvl nodes : Nat) (input : Bytes) :
    Option Bytes :=
  let n := pyRound input.length nodes
  if n = 0 then none
  else encapsulateAll ((chunkSplit n input).map (cf lvl))

/-- `compress`: `__p_compress` then the Khaki wrapper (with `exif = None`:
`exifdata` defaults to False and the link protocol uses the default). -/
def plasmaCompress (cf : Nat → Bytes → Bytes) (lvl nodes : Nat)
    (input : Bytes) : Option Bytes :=
  (pCompress cf lvl nodes input).map khakiDumpsCompressed

/-- `decompress`: Khaki-decode, take `decoded['compressed']`, re-split the
capsules, decompress each chunk, join.  `decoded['exif']` is read at the
end; it is `None` for everything this compressor produces (a non-None exif
enters the external mmh3 checksum comparison, out of scope here). -/
def plasmaDecompress (df : Bytes → Bytes) (input : Bytes) : Option Bytes :=
  match khakiLoads (input.length + 1) input with
  | some (.kdict entries) =>
    match kdictGet entries (.kstr utf8Compressed) with
    | some (.kbytes compressed) =>
      match kdictGet entries (.kstr utf8Exif) with
      | some .knone => some (((parseCapsules compressed).map df).flatten)
      | _ => none
    | _ => none
  | _ => none

theorem encapsulateAll_some (l : List Bytes)
    (h : ∀ c ∈ l, c.length < 2 ^ 24) :
    ∃ out, encapsulateAll l = some out := by
  induction l with
  | nil => exact ⟨[], rfl⟩
  | cons c rest ih =>
    obtain ⟨r, hr⟩ := ih fun x hx => h x (by simp [hx])
    exact ⟨natToLE 3 c.length ++ c ++ r,
      by simp only [encapsulateAll, h c (by simp), if_true, hr]⟩

theorem khakiDumpsCompressed_length (b : Bytes) :
    (khakiDumpsCompressed b).length = b.length + 41 := by
  simp [khakiDumpsCompressed, khakiSized, khakiValBytes, khakiKeyCompressed,
    khakiKeyExif, khakiValNone, utf8Compressed, utf8Exif, natToLE_length]
  omega

/-- The defining equation of `plasmaDecompress`, stated explicitly. -/
theorem plasmaDecompress_eq (df : Bytes → Bytes) (i : Bytes) :
    plasmaDecompress df i =
      match khakiLoads (i.length + 1) i with
      | some (.kdict entries) =>
        match kdictGet entries (.kstr utf8Compressed) with
        | some (.kbytes compressed) =>
          match kdictGet entries (.kstr utf8Exif) with
          | some .knone => some (((parseCapsules compressed).map df).flatten)
          | _ => none
        | _ => none
      | _ => none := rfl

/-- `decompress` applied to the Khaki wrapper of a capsule body recovers
the per-chunk decompressed stream. -/
theorem plasmaDecompress_of_dumps (df : Bytes → Bytes) (body : Bytes)
    (hblen : body.length + 2 < 2 ^ 31) :
    plasmaDecompress df (khakiDumpsCompressed body) =
      some (((parseCapsules body).map df).flatten) := by
  have hfuel : (khakiDumpsCompressed body).length + 1 =
      (body.length + 38) + 4 := by
    rw [khakiDumpsCompressed_length]
  have hget1 : kdictGet [(.kstr utf8Compressed, .kbytes body),
      (.kstr utf8Exif, .knone)] (.kstr utf8Compressed) =
      some (.kbytes body) := by
    simp [kdictGet, kvalBeq, utf8Compressed, utf8Exif]
  have hget2 : kdictGet [(.kstr utf8Compressed, .kbytes body),
      (.kstr utf8Exif, .knone)] (.kstr utf8Exif) = some .knone := by
    simp [kdictGet, kvalBeq, utf8Compressed, utf8Exif]
  have hload : khakiLoads ((khakiDumpsCompressed body).length + 1)
      (khakiDumpsCompressed body) =
      some (.kdict [(.kstr utf8Compressed, .kbytes body),
                    (.kstr utf8Exif, .knone)]) := by
    rw [hfuel, khakiLoads_dumps (body.length + 38) body hblen]
  rw [plasmaDecompress_eq, hload]
  simp only [hget1, hget2]

/-- The compression-side roundtrip, under the domain bounds of the wire
format (nonzero per-worker chunk size, 3-byte capsule lengths, 4-byte Khaki
sizes). -/
theorem plasma_roundtrip (cf : Nat → Bytes → Bytes) (df : Bytes → Bytes)
    (lvl nodes : Nat) (input : Bytes)
    (hengine : ∀ l b, df (cf l b) = b)
    (hchunk : pyRound input.length nodes ≠ 0)
    (hsize : ∀ c ∈ chunkSplit (pyRound input.length nodes) input,
      (cf lvl c).length < 2 ^ 24)
    (hbody : ∀ body ∈ (pCompress cf lvl nodes input).toList,
      body.length + 2 < 2 ^ 31) :
    ∃ wire, plasmaCompress cf lvl nodes input = some wire ∧
      plasmaDecompress df wire = some input := by
  obtain ⟨body, hbodyEq⟩ :=
    encapsulateAll_some ((chunkSplit (pyRound input.length nodes) input).map
      (cf lvl))
      (by
        intro c hc
        obtain ⟨c0, hc0, rfl⟩ := List.mem_map.mp hc
        exact hsize c0 hc0)
  have hpc : pCompress cf lvl nodes input = some body := by
    simp only [pCompress, hchunk, if_false, hbodyEq]
  have hblen : body.length + 2 < 2 ^ 31 := by
    apply hbody
    simp [hpc]
  refine ⟨khakiDumpsCompressed body, ?_, ?_⟩
  · simp only [plasmaCompress, hpc, Option.map_some']
  · rw [plasmaDecompress_of_dumps df body hblen]
    rw [parseCapsules_encapsulateAll _ _ hbodyEq]
    rw [List.map_map]
    have hmaps : ((chunkSplit (pyRound input.length nodes) input).map
        (df ∘ cf lvl)) = chunkSplit (pyRound input.length nodes) input := by
      have hptw : ∀ c ∈ chunkSplit (pyRound input.length nodes) input,
          (df ∘ cf lvl) c = id c := fun c _ => hengine lvl c
      rw [List.map_congr_left hptw, List.map_id]
    rw [hmaps, chunkSplit_flatten _ hchunk]

theorem singleDecrypt_singleEncrypt (ks : Bytes → Bytes → Nat → Nat)
    (key iv raw : Bytes) (hiv : iv.length = 12) :
    singleDecrypt ks key (singleEncrypt ks key iv raw) = some raw := by
  have hne : singleEncrypt ks key iv raw ≠ [] := by
    intro hc
    have := congrArg List.length hc
    simp only [singleEncrypt, List.length_append, hiv, List.length_nil] at this
    omega
  simp only [singleDecrypt, hne, if_false, singleEncrypt]
  rw [List.take_left' hiv, List.drop_left' hiv, xorStreamFrom_involution]
  rw [if_neg (by
    intro hc
    have := congrArg List.length hc
    simp only [List.length_append, hiv, List.length_nil] at this
    omega)]

theorem snd_mem_enum {α : Type} {l : List α} {p : Nat × α}
    (h : p ∈ l.enum) : p.2 ∈ l := by
  have h1 : p.2 ∈ l.enum.map Prod.snd := List.mem_map_of_mem Prod.snd h
  simpa [List.enum_map_snd] using h1

theorem mapM_singleDecrypt (ks : Bytes → Bytes → Nat → Nat) (key : Bytes)
    (ivs : Nat → Bytes) (hiv : ∀ i, (ivs i).length = 12)
    (pairs : List (Nat × Bytes)) :
    (pairs.map fun p => singleEncrypt ks key (ivs p.1) p.2).mapM
        (singleDecrypt ks key) =
      some (pairs.map fun p => p.2) := by
  induction pairs with
  | nil => rfl
  | cons p rest ih =>
    rw [List.map_cons, List.mapM_cons,
      singleDecrypt_singleEncrypt ks key _ _ (hiv p.1), ih]
    rfl

theorem aesChunkSize_ne_zero (θ rawLen : Nat) : aesChunkSize θ rawLen ≠ 0 := by
  simp only [aesChunkSize]
  split <;> simp_all

/-- The cipher-side roundtrip: `decrypt(encrypt(raw)) = raw` for every byte
string, including the empty string (the chunk size is clamped to 1), under
the 3-byte capsule length bound. -/
theorem aes_roundtrip (ks : Bytes → Bytes → Nat → Nat) (key : Bytes)
    (ivs : Nat → Bytes) (θ : Nat) (raw : Bytes)
    (hiv : ∀ i, (ivs i).length = 12)
    (hcap : ∀ c ∈ chunkSplit (aesChunkSize θ raw.length) raw,
      c.length + 12 < 2 ^ 24) :
    ∃ wire, aesEncrypt ks key ivs θ raw = some wire ∧
      aesDecrypt ks key wire = some raw := by
  obtain ⟨wire, hwire⟩ := encapsulateAll_some
    ((chunkSplit (aesChunkSize θ raw.length) raw).enum.map
      fun p => singleEncrypt ks key (ivs p.1) p.2)
    (by
      intro c hc
      obtain ⟨p, hp, rfl⟩ := List.mem_map.mp hc
      have hmem := snd_mem_enum hp
      have := hcap p.2 hmem
      simp only [singleEncrypt, List.length_append, hiv p.1,
        xorStreamFrom_length]
      omega)
  refine ⟨wire, hwire, ?_⟩
  rw [aesDecrypt, parseCapsules_encapsulateAll _ _ hwire,
    mapM_singleDecrypt ks key ivs hiv]
  rw [show ((chunkSplit (aesChunkSize θ raw.length) raw).enum.map
      fun p => p.2) = chunkSplit (aesChunkSize θ raw.length) raw from
    List.enum_map_snd _]
  simp only [chunkSplit_flatten _ (aesChunkSize_ne_zero θ raw.length)]

/-- C6 counterexample: the claim fails at the empty string (and at strings
shorter than the worker count).  `compress(b"")` computes a per-worker
chunk size of `int(round(0 / nodes)) = 0` and consuming
`__chunks(input, 0)` raises `ValueError: range() arg 3 must not be zero`,
so `decompress(compress(b""))` is not `b""` — it raises.  Likewise a
3-byte input on 16 workers (`round(3/16) = 0`).  The engine is
instantiated with the identity so the statement is closed. -/
theorem c6_compress_empty_raises :
    plasmaCompress (fun _ b => b) 1 4 [] = none ∧
    plasmaCompress (fun _ b => b) 1 16 [7, 7, 7] = none ∧
    ¬ ∃ wire, plasmaCompress (fun _ b => b) 1 4 [] = some wire ∧
        plasmaDecompress (fun b => b) wire = some [] := by
  refine ⟨by decide, by decide, ?_⟩
  rintro ⟨wire, hw, _⟩
  rw [show plasmaCompress (fun _ b => b) 1 4 [] = none from by decide] at hw
  exact absurd hw (by simp)

/-- C6 (amended): `decompress(compress(x)) = x` holds for the parallel
compression interface whenever the per-worker chunk size
`int(round(len(x) / nodes))` is nonzero (for the empty string and for
inputs much shorter than the worker count `compress` raises instead), with
the wire-format size bounds (3-byte capsule lengths, 4-byte Khaki sizes)
and an engine whose per-chunk `decompress` inverts its `compress`; and
`decrypt(encrypt(x)) = x` holds for the parallel AES interface for every
byte string `x`, including the empty string and strings shorter than the
worker count (its chunk size is clamped to 1), under the capsule bound. -/
theorem c6_roundtrip_identities (cf : Nat → Bytes → Bytes)
    (df : Bytes → Bytes) (lvl nodes : Nat) (input : Bytes)
    (hengine : ∀ l b, df (cf l b) = b)
    (hchunk : pyRound input.length nodes ≠ 0)
    (hsize : ∀ c ∈ chunkSplit (pyRound input.length nodes) input,
      (cf lvl c).length < 2 ^ 24)
    (hbody : ∀ body ∈ (pCompress cf lvl nodes input).toList,
      body.length + 2 < 2 ^ 31)
    (ks : Bytes → Bytes → Nat → Nat) (key : Bytes) (ivs : Nat → Bytes)
    (θ : Nat) (raw : Bytes) (hiv : ∀ i, (ivs i).length = 12)
    (hcap : ∀ c ∈ chunkSplit (aesChunkSize θ raw.length) raw,
      c.length + 12 < 2 ^ 24) :
    (∃ wire, plasmaCompress cf lvl nodes input = some wire ∧
      plasmaDecompress df wire = some input) ∧
    (∃ wire, aesEncrypt ks key ivs θ raw = some wire ∧
      aesDecrypt ks key wire = some raw) :=
  ⟨plasma_roundtrip cf df lvl nodes input hengine hchunk hsize hbody,
   aes_roundtrip ks key ivs θ raw hiv hcap⟩

/-- C6 witness: the amended roundtrips at a concrete instance — identity
engine, one worker, input `[7, 7]` for the compressor; zero keystream,
12-zero-byte IVs, one worker, the empty string for the cipher. -/
theorem c6_roundtrip_identities_witness :
    (pyRound ([7, 7] : Bytes).length 1 ≠ 0) ∧
    (∀ c ∈ chunkSplit (pyRound ([7, 7] : Bytes).length 1) ([7, 7] : Bytes),
      ((fun (_ : Nat) (b : Bytes) => b) 1 c).length < 2 ^ 24) ∧
    (∀ body ∈ (pCompress (fun _ b => b) 1 1 ([7, 7] : Bytes)).toList,
      body.length + 2 < 2 ^ 31) ∧
    (∀ c ∈ chunkSplit (aesChunkSize 1 ([] : Bytes).length) ([] : Bytes),
      c.length + 12 < 2 ^ 24) ∧
    ((∃ wire, plasmaCompress (fun _ b => b) 1 1 [7, 7] = some wire ∧
        plasmaDecompress (fun b => b) wire = some [7, 7]) ∧
      (∃ wire, aesEncrypt (fun _ _ _ => 0) [1] (fun _ => List.replicate 12 0)
          1 [] = some wire ∧
        aesDecrypt (fun _ _ _ => 0) [1] wire = some [])) :=
  ⟨by decide, by decide, by decide, by decide,
    c6_roundtrip_identities (fun _ b => b) (fun b => b) 1 1 [7, 7]
      (fun _ _ => rfl) (by decide) (by decide) (by decide)
      (fun _ _ _ => 0) [1] (fun _ => List.replicate 12 0) 1 []
      (fun _ => rfl) (by decide)⟩

/-! ## Chunk cacher (`eastwood/modules/chunk_cacher.py`)

`packet_send_chunk_data` (lines 80-154) is the module hook for clientbound
`chunk_data` packets.  The per-dimension factory state it touches is
collected in `CacherState`; the plasma engine, the mmh3 fingerprint and the
configured threshold are parameters.  Python dictionaries keyed by `bytes`
chunk keys are association lists in insertion order; the bincache
(`bincache.py`) has the same shape, since `Cache.insert` is a plain SQL
`INSERT` (a new row at the end) and `Cache.get` returns the first row with
the given identifier, or `None`. -/

/-- First-match association lookup over `bytes` keys: Python `dict`
indexing, and bincache `SELECT ... WHERE identifier = ?` + `fetchone`. -/
def lookupB {α : Type} : List (Bytes × α) → Bytes → Option α
  | [], _ => none
  | (a, v) :: t, key => if a = key then some v else lookupB t key

/-- Python dict assignment `d[k] = v`: overwrite the binding in place, or
append a new one. -/
def setB {α : Type} : List (Bytes × α) → Bytes → α → List (Bytes × α)
  | [], key, v => [(key, v)]
  | (a, w) :: t, key, v =>
    if a = key then (a, v) :: t else (a, w) :: setB t key v

/-- Python `del d[k]`: drop the binding (a dict holds at most one per
key). -/
def delB {α : Type} : List (Bytes × α) → Bytes → List (Bytes × α)
  | [], _ => []
  | (a, w) :: t, key => if a = key then t else (a, w) :: delB t key

/-- SQL `UPDATE ... WHERE identifier = ?` (bincache `update`): rewrite
every matching row, a no-op when none matches. -/
def updB {α : Type} : List (Bytes × α) → Bytes → α → List (Bytes × α)
  | [], _, _ => []
  | (a, w) :: t, key, v => (a, if a = key then v else w) :: updB t key v

/-- A `defaultdict(int)` read `d[k]`: a missing key is inserted as `0` by
the read itself (`tracker[self.dimension][chunk_key]` does this on every
comparison, lines 95 and 133 of `chunk_cacher.py`). -/
def trackerRead (t : List (Bytes × Nat)) (key : Bytes) :
    Nat × List (Bytes × Nat) :=
  match lookupB t key with
  | some v => (v, t)
  | none => (0, t ++ [(key, 0)])

/-- The per-dimension factory state touched by the chunk cacher:
`tracker` is `factory.tracker[dimension]` (a `defaultdict(int)` of pull
counts), `cache` is `factory.caches[dimension]` (bincache rows), the two
memo fields are `factory.last_grabbed_key`/`last_grabbed_value`, and
`processed` is `factory.processed_packets[dimension]`. -/
structure CacherState where
  tracker : List (Bytes × Nat)
  cache : List (Bytes × Bytes)
  lastGrabbedKey : Option Bytes
  lastGrabbedValue : Option Bytes
  processed : List Nat
  deriving DecidableEq, Repr

/-- `ChunkCacher.handle_missing_data` (lines 479-484): delete the tracker
entry (`del` raises `KeyError` when the key is untracked — `none`) and
emit one `toggle_chunk(dimension, key)` to the peer. -/
def handle_missing_data (dim : Int) (key : Bytes) (st : CacherState) :
    Option (CacherState × (Int × Bytes)) :=
  match lookupB st.tracker key with
  | none => none
  | some _ => some ({ st with tracker := delB st.tracker key }, (dim, key))

/-- Result of `get_cached_chunk`: `hit data` is a returned `Buffer` whose
underlying bytes are `data` (quarry buffers are falsy exactly when they
hold no bytes, via `Buffer.__len__`), `miss` the explicit `return None`,
`raised` an escaping exception (a `KeyError` from `handle_missing_data` on
an untracked key, or a `decompress` failure). -/
inductive Grabbed where
  | hit (data : Bytes)
  | miss
  | raised
  deriving DecidableEq, Repr

/-- `ChunkCacher.get_cached_chunk` (lines 309-329) with decompression
engine `df`: a memo hit short-circuits; otherwise record the key in the
memo, read the bincache, send missing (or empty: `if not cached_data`)
rows through `handle_missing_data` and return `None`, else decompress and
memoise the raw bytes.  The middle component accumulates the
`toggle_chunk` packets sent to the other proxy. -/
def get_cached_chunk (df : Bytes → Bytes) (dim : Int) (key : Bytes)
    (st : CacherState) : CacherState × List (Int × Bytes) × Grabbed :=
  if st.lastGrabbedKey = some key then
    (st, [], .hit (st.lastGrabbedValue.getD []))
  else
    let st1 := { st with lastGrabbedKey := some key }
    match lookupB st1.cache key with
    | none =>
      match handle_missing_data dim key st1 with
      | none => (st1, [], .raised)
      | some (st2, tg) => (st2, [tg], .miss)
    | some blob =>
      if blob = [] then
        match handle_missing_data dim key st1 with
        | none => (st1, [], .raised)
        | some (st2, tg) => (st2, [tg], .miss)
      else
        match plasmaDecompress df blob with
        | none => (st1, [], .raised)
        | some data =>
          ({ st1 with lastGrabbedValue := some data }, [], .hit data)

/-- `ChunkCacher.set_cached_chunk` (lines 331-345): memoise the raw bytes,
plasma-compress, and write the bincache row.  The `Bool` is true when the
compression raised (its `ValueError` on a zero per-worker chunk size
escapes after the memo assignments and before any cache write). -/
def set_cached_chunk (cf : Nat → Bytes → Bytes) (lvl nodes : Nat)
    (key data : Bytes) (insert : Bool) (st : CacherState) :
    CacherState × Bool :=
  let st1 := { st with lastGrabbedKey := some key,
                       lastGrabbedValue := some data }
  match plasmaCompress cf lvl nodes data with
  | none => (st1, true)
  | some blob =>
    ({ st1 with cache := if insert then st1.cache ++ [(key, blob)]
                         else updB st1.cache key blob }, false)

/-- `ChunkCacher.generate_cached_chunk_packet` (lines 411-421): rebuild
`key ∥ pack("?", True) ∥ cached.buff` from the cache.  A hit on an empty
cached buffer is falsy (`if not cached_data`), so it too yields the bare
`return None`. -/
def generate_cached_chunk_packet (df : Bytes → Bytes) (dim : Int)
    (key : Bytes) (st : CacherState) :
    CacherState × List (Int × Bytes) × Grabbed :=
  match get_cached_chunk df dim key st with
  | (st1, tgs, .hit data) =>
    if data = [] then (st1, tgs, .miss)
    else (st1, tgs, .hit (key ++ 1 :: data))
  | r => r

/-- Observable outcome of the module hook (`modules/__init__.py`):
`passThrough` is the Python `return None`, after which the protocol sends
the original packet unchanged; `replaceChunk d` is
`return ("chunk_data", Buffer(d))`, which replaces the packet; `raised` is
an exception escaping the hook. -/
inductive ChunkAction where
  | passThrough
  | replaceChunk (payload : Bytes)
  | raised
  deriving DecidableEq, Repr

/-- A hook run: final state, emitted `toggle_chunk(dimension, key)`
packets, and the action. -/
structure ChunkOut where
  st : CacherState
  toggles : List (Int × Bytes)
  action : ChunkAction
  deriving DecidableEq, Repr

/-- The bytes that reach the client after the hook runs: the replacement
payload when the hook returned one, otherwise the original packet
unchanged; nothing when the hook raised. -/
def forwardedBytes (original : Bytes) (out : ChunkOut) : Option Bytes :=
  match out.action with
  | .passThrough => some original
  | .replaceChunk d => some d
  | .raised => none

/-- Shared tail of the full-chunk path (lines 145-154): `set_cached_chunk`
with `insert=True`, then `tracker[dimension][chunk_key] += 1`, then one
`toggle_chunk` — unless the compression inside `set_cached_chunk`
raised. -/
def cacheChunkTail (cf : Nat → Bytes → Bytes) (lvl nodes : Nat) (dim : Int)
    (key data : Bytes) (tgs : List (Int × Bytes)) (st : CacherState) :
    ChunkOut :=
  let r := set_cached_chunk cf lvl nodes key data true st
  if r.2 then ⟨r.1, tgs, .raised⟩
  else
    let p := trackerRead r.1.tracker key
    ⟨{ r.1 with tracker := setB p.2 key (p.1 + 1) }, tgs ++ [(dim, key)],
      .passThrough⟩

/-- `ChunkCacher.packet_send_chunk_data` (lines 80-154).  `cf`/`df`/`lvl`/
`nodes` parameterise the plasma engine, `hash` the mmh3 fingerprint,
`threshold` the config value and `dim` the current dimension; `b` is the
raw packet payload: `unpack("ii?")` reads chunk x, chunk z (signed 32-bit
big-endian) and the full-chunk bool, and `chunk_key = pack("ii", x, z)`.
`none` marks runs that leave the embedded fragment: a `BufferUnderrun` on
the 9-byte header (the dispatcher drops the packet), or the non-full
delta-overlay path beyond its tracker guard (lines 98-131). -/
def packet_send_chunk_data (cf : Nat → Bytes → Bytes) (df : Bytes → Bytes)
    (lvl nodes : Nat) (hash : Bytes → Nat) (threshold : Nat) (dim : Int)
    (st : CacherState) (b : Bytes) : Option ChunkOut :=
  match unpackI32 b with
  | none => none
  | some (cx, r1) =>
  match unpackI32 r1 with
  | none => none
  | some (cz, r2) =>
  match r2 with
  | [] => none
  | fullByte :: rest =>
    let chunk_key := packI32 cx ++ packI32 cz
    if fullByte = 0 then
      -- non-full chunk: acts as a large multi-block change (lines 90-131)
      let d := is_duplicate hash st.processed b
      if d.1 then some ⟨{ st with processed := d.2 }, [], .passThrough⟩
      else
        let st1 := { st with processed := d.2 }
        let p := trackerRead st1.tracker chunk_key
        if p.1 ≤ threshold then
          some ⟨{ st1 with tracker := p.2 }, [], .passThrough⟩
        else none
    else
      let p := trackerRead st.tracker chunk_key
      let st1 := { st with tracker := p.2 }
      if p.1 < threshold then
        some ⟨{ st1 with tracker := setB st1.tracker chunk_key (p.1 + 1) },
              [], .passThrough⟩
      else if rest = [] then
        match generate_cached_chunk_packet df dim chunk_key st1 with
        | (st2, tgs, .hit c) => some ⟨st2, tgs, .replaceChunk c⟩
        | (st2, tgs, .miss) =>
          some (cacheChunkTail cf lvl nodes dim chunk_key [] tgs st2)
        | (st2, tgs, .raised) => some ⟨st2, tgs, .raised⟩
      else
        some (cacheChunkTail cf lvl nodes dim chunk_key rest [] st1)

theorem lookupB_append {α : Type} (t s : List (Bytes × α)) (k : Bytes) :
    lookupB (t ++ s) k =
      match lookupB t k with
      | some v => some v
      | none => lookupB s k := by
  induction t with
  | nil => simp [lookupB]
  | cons hd tl ih =>
    obtain ⟨a, w⟩ := hd
    by_cases h : a = k <;> simp [lookupB, h, ih]

theorem lookupB_setB_self {α : Type} (t : List (Bytes × α)) (key : Bytes)
    (v : α) : lookupB (setB t key v) key = some v := by
  induction t with
  | nil => simp [setB, lookupB]
  | cons hd tl ih =>
    obtain ⟨a, w⟩ := hd
    by_cases h : a = key <;> simp [setB, lookupB, h, ih]

theorem lookupB_setB_ne {α : Type} (t : List (Bytes × α)) (key k : Bytes)
    (v : α) (h : k ≠ key) : lookupB (setB t key v) k = lookupB t k := by
  induction t with
  | nil => simp [setB, lookupB, Ne.symm h]
  | cons hd tl ih =>
    obtain ⟨a, w⟩ := hd
    by_cases ha : a = key
    · subst ha
      simp [setB, lookupB, Ne.symm h]
    · simp [setB, lookupB, ha, ih]

theorem lookupB_eq_none_of_not_mem {α : Type} (t : List (Bytes × α))
    (k : Bytes) (h : k ∉ t.map Prod.fst) : lookupB t k = none := by
  induction t with
  | nil => rfl
  | cons hd tl ih =>
    obtain ⟨a, w⟩ := hd
    simp only [List.map_cons, List.mem_cons] at h
    push_neg at h
    rw [lookupB, if_neg fun hh => h.1 hh.symm]
    exact ih h.2

theorem lookupB_delB_self {α : Type} (t : List (Bytes × α)) (key : Bytes)
    (hnd : (t.map Prod.fst).Nodup) : lookupB (delB t key) key = none := by
  induction t with
  | nil => rfl
  | cons hd tl ih =>
    obtain ⟨a, w⟩ := hd
    simp only [List.map_cons, List.nodup_cons] at hnd
    by_cases h : a = key
    · subst h
      rw [delB, if_pos rfl]
      exact lookupB_eq_none_of_not_mem tl a hnd.1
    · rw [delB, if_neg h, lookupB, if_neg h]
      exact ih hnd.2

theorem lookupB_delB_ne {α : Type} (t : List (Bytes × α)) (key k : Bytes)
    (h : k ≠ key) : lookupB (delB t key) k = lookupB t k := by
  induction t with
  | nil => rfl
  | cons hd tl ih =>
    obtain ⟨a, w⟩ := hd
    by_cases ha : a = key
    · subst ha
      rw [delB, if_pos rfl, lookupB, if_neg fun hh => h hh.symm]
    · rw [delB, if_neg ha, lookupB, lookupB, ih]

theorem trackerRead_fst (t : List (Bytes × Nat)) (key : Bytes) :
    (trackerRead t key).1 = (lookupB t key).getD 0 := by
  unfold trackerRead
  cases h : lookupB t key <;> simp [h]

theorem lookupB_trackerRead_ne (t : List (Bytes × Nat)) (key k : Bytes)
    (h : k ≠ key) : lookupB (trackerRead t key).2 k = lookupB t k := by
  unfold trackerRead
  cases hl : lookupB t key
  · rw [lookupB_append]
    cases hk : lookupB t k
    · simp [lookupB, Ne.symm h]
    · simp
  · simp

theorem pyRound_zero (b : Nat) : pyRound 0 b = 0 := by
  unfold pyRound
  rcases Nat.eq_zero_or_pos b with hb | hb
  · subst hb; rfl
  · simp [Nat.zero_div, Nat.zero_mod, hb]

/-- `compress(b"")` raises inside `__p_compress` (zero per-worker chunk
size), before any cache write — shared by the `set_cached_chunk` paths. -/
theorem plasmaCompress_nil (cf : Nat → Bytes → Bytes) (lvl nodes : Nat) :
    plasmaCompress cf lvl nodes [] = none := by
  simp [plasmaCompress, pCompress, pyRound_zero]

/-- C7: a full `chunk_data` packet with non-empty payload whose tracker
count for the chunk key is below the threshold: the hook increments that
count by exactly one (a missing count reads as the defaultdict default 0),
touches nothing else — no toggle_chunk, no cache write, memo and
duplicate-hash list unchanged — and returns `None`, so the packet reaches
the client byte-identical to the input. -/
theorem c7_full_chunk_below_threshold_passes_through
    (cf : Nat → Bytes → Bytes) (df : Bytes → Bytes) (lvl nodes : Nat)
    (hash : Bytes → Nat) (threshold : Nat) (dim : Int) (st : CacherState)
    (cx cz : Int) (payload : Bytes)
    (hcx₁ : -(2 ^ 31) ≤ cx) (hcx₂ : cx < 2 ^ 31)
    (hcz₁ : -(2 ^ 31) ≤ cz) (hcz₂ : cz < 2 ^ 31)
    (hpay : payload ≠ [])
    (hcnt : (lookupB st.tracker (packI32 cx ++ packI32 cz)).getD 0 <
      threshold) :
    ∃ tr,
      packet_send_chunk_data cf df lvl nodes hash threshold dim st
          (packI32 cx ++ packI32 cz ++ 1 :: payload) =
        some ⟨{ st with tracker := tr }, [], .passThrough⟩ ∧
      lookupB tr (packI32 cx ++ packI32 cz) =
        some ((lookupB st.tracker (packI32 cx ++ packI32 cz)).getD 0 + 1) ∧
      (∀ k, k ≠ packI32 cx ++ packI32 cz →
        lookupB tr k = lookupB st.tracker k) ∧
      forwardedBytes (packI32 cx ++ packI32 cz ++ 1 :: payload)
          ⟨{ st with tracker := tr }, [], .passThrough⟩ =
        some (packI32 cx ++ packI32 cz ++ 1 :: payload) := by
  refine ⟨setB (trackerRead st.tracker (packI32 cx ++ packI32 cz)).2
      (packI32 cx ++ packI32 cz)
      ((lookupB st.tracker (packI32 cx ++ packI32 cz)).getD 0 + 1),
    ?_, lookupB_setB_self _ _ _,
    fun k hk => by
      rw [lookupB_setB_ne _ _ _ _ hk, lookupB_trackerRead_ne _ _ _ hk],
    rfl⟩
  have h1 := unpackI32_packI32 cx (packI32 cz ++ 1 :: payload) hcx₁ hcx₂
  have h2 := unpackI32_packI32 cz (1 :: payload) hcz₁ hcz₂
  have hlt : (trackerRead st.tracker (packI32 cx ++ packI32 cz)).1 <
      threshold := by
    rw [trackerRead_fst]; exact hcnt
  rw [show packI32 cx ++ packI32 cz ++ 1 :: payload =
      packI32 cx ++ (packI32 cz ++ 1 :: payload) from List.append_assoc _ _ _]
  simp only [packet_send_chunk_data, h1, h2]
  rw [if_neg (show (1 : Nat) ≠ 0 by decide), if_pos hlt,
    trackerRead_fst st.tracker (packI32 cx ++ packI32 cz)]

/-- C7 witness: a fresh state, threshold 2, chunk `(3, -7)` with a
one-byte payload. -/
theorem c7_full_chunk_below_threshold_passes_through_witness :
    (-(2 ^ 31) ≤ (3 : Int)) ∧ ((3 : Int) < 2 ^ 31) ∧
    (-(2 ^ 31) ≤ (-7 : Int)) ∧ ((-7 : Int) < 2 ^ 31) ∧
    (([5] : Bytes) ≠ []) ∧
    ((lookupB ([] : List (Bytes × Nat))
        (packI32 3 ++ packI32 (-7))).getD 0 < 2) ∧
    (∃ tr,
      packet_send_chunk_data (fun _ b => b) (fun b => b) 1 4 (fun _ => 0) 2
          0 ⟨[], [], none, none, []⟩
          (packI32 3 ++ packI32 (-7) ++ 1 :: [5]) =
        some ⟨{ (⟨[], [], none, none, []⟩ : CacherState) with tracker := tr },
              [], .passThrough⟩ ∧
      lookupB tr (packI32 3 ++ packI32 (-7)) =
        some ((lookupB ([] : List (Bytes × Nat))
          (packI32 3 ++ packI32 (-7))).getD 0 + 1) ∧
      (∀ k, k ≠ packI32 3 ++ packI32 (-7) →
        lookupB tr k = lookupB ([] : List (Bytes × Nat)) k) ∧
      forwardedBytes (packI32 3 ++ packI32 (-7) ++ 1 :: [5])
          ⟨{ (⟨[], [], none, none, []⟩ : CacherState) with tracker := tr },
            [], .passThrough⟩ =
        some (packI32 3 ++ packI32 (-7) ++ 1 :: [5])) :=
  ⟨by decide, by decide, by decide, by decide, by decide, by decide,
    c7_full_chunk_below_threshold_passes_through (fun _ b => b) (fun b => b)
      1 4 (fun _ => 0) 2 0 ⟨[], [], none, none, []⟩ 3 (-7) [5]
      (by decide) (by decide) (by decide) (by decide) (by decide)
      (by decide)⟩

/-- C8 counterexample: a full chunk packet with empty payload for a key
with no cache entry, on a fresh state (the key is also untracked) with
threshold 1.  The below-threshold guard runs first, so the hook emits NO
toggle_chunk, CREATES a tracker entry at 1 (the defaultdict read inserts
it) instead of removing one, and returns `None` — while the claim demands
exactly one toggle_chunk and the removal of the tracker entry for every
uncached key. -/
theorem c8_empty_marker_uncached_counterexample :
    packet_send_chunk_data (fun _ b => b) (fun b => b) 1 4 (fun _ => 0) 1 0
        ⟨[], [], none, none, []⟩ (packI32 0 ++ packI32 0 ++ [1]) =
      some ⟨⟨[(packI32 0 ++ packI32 0, 1)], [], none, none, []⟩, [],
            .passThrough⟩ ∧
    (([] : List (Int × Bytes)) ≠ [((0 : Int), packI32 0 ++ packI32 0)]) ∧
    lookupB [(packI32 0 ++ packI32 0, 1)] (packI32 0 ++ packI32 0) =
      some 1 := by
  refine ⟨by decide, by decide, by decide⟩

/-- C8 (amended): the retirement behaviour holds once the key is actually
tracked at-or-above threshold (the state every uncached "send me the
cached one" marker is produced in) and is not the current memo key: the
hook emits exactly one `toggle_chunk(dimension, key)`, removes the tracker
entry for the key, and leaves the cache unchanged — no entry, in
particular no empty entry, is inserted, because `set_cached_chunk`'s
compression of the empty payload raises before the bincache insert (the
hook therefore raises rather than returning).  Under a per-key nodup
tracker, the invariant "every other tracked-at-or-above-threshold key has
a non-empty cache entry" transfers to the post state for all keys. -/
theorem c8_empty_marker_uncached_retires (cf : Nat → Bytes → Bytes)
    (df : Bytes → Bytes) (lvl nodes : Nat) (hash : Bytes → Nat)
    (threshold : Nat) (dim : Int) (st : CacherState) (cx cz : Int)
    (cnt : Nat)
    (hcx₁ : -(2 ^ 31) ≤ cx) (hcx₂ : cx < 2 ^ 31)
    (hcz₁ : -(2 ^ 31) ≤ cz) (hcz₂ : cz < 2 ^ 31)
    (htr : lookupB st.tracker (packI32 cx ++ packI32 cz) = some cnt)
    (hth : threshold ≤ cnt)
    (hcache : lookupB st.cache (packI32 cx ++ packI32 cz) = none)
    (hmemo : st.lastGrabbedKey ≠ some (packI32 cx ++ packI32 cz))
    (hnd : (st.tracker.map Prod.fst).Nodup) :
    packet_send_chunk_data cf df lvl nodes hash threshold dim st
        (packI32 cx ++ packI32 cz ++ [1]) =
      some ⟨{ st with
              tracker := delB st.tracker (packI32 cx ++ packI32 cz),
              lastGrabbedKey := some (packI32 cx ++ packI32 cz),
              lastGrabbedValue := some [] },
            [(dim, packI32 cx ++ packI32 cz)], .raised⟩ ∧
    lookupB (delB st.tracker (packI32 cx ++ packI32 cz))
        (packI32 cx ++ packI32 cz) = none ∧
    (∀ k, k ≠ packI32 cx ++ packI32 cz →
      lookupB (delB st.tracker (packI32 cx ++ packI32 cz)) k =
        lookupB st.tracker k) ∧
    ((∀ k c, k ≠ packI32 cx ++ packI32 cz → lookupB st.tracker k = some c →
        threshold ≤ c → ∃ v, lookupB st.cache k = some v ∧ v ≠ []) →
      ∀ k c,
        lookupB (delB st.tracker (packI32 cx ++ packI32 cz)) k = some c →
        threshold ≤ c → ∃ v, lookupB st.cache k = some v ∧ v ≠ []) := by
  refine ⟨?_, lookupB_delB_self _ _ hnd,
    fun k hk => lookupB_delB_ne _ _ _ hk, ?_⟩
  · have h1 := unpackI32_packI32 cx (packI32 cz ++ [1]) hcx₁ hcx₂
    have h2 := unpackI32_packI32 cz [1] hcz₁ hcz₂
    have hltf : ¬ cnt < threshold := not_lt.mpr hth
    rw [show packI32 cx ++ packI32 cz ++ [1] =
        packI32 cx ++ (packI32 cz ++ [1]) from List.append_assoc _ _ _]
    simp only [packet_send_chunk_data, h1, h2, generate_cached_chunk_packet,
      get_cached_chunk, handle_missing_data, cacheChunkTail,
      set_cached_chunk, trackerRead, htr, hcache, plasmaCompress_nil]
    simp [hltf, hmemo, htr, hcache]
  · intro hpre k c hl hc
    by_cases hk : k = packI32 cx ++ packI32 cz
    · subst hk
      rw [lookupB_delB_self _ _ hnd] at hl
      exact Option.noConfusion hl
    · rw [lookupB_delB_ne _ _ _ hk] at hl
      exact hpre k c hk hl hc

/-- C8 witness for the amended theorem: chunk `(3, -7)` tracked at the
threshold 2 but absent from the cache, fresh memo. -/
theorem c8_empty_marker_uncached_retires_witness :
    (lookupB ([(packI32 3 ++ packI32 (-7), 2)] : List (Bytes × Nat))
        (packI32 3 ++ packI32 (-7)) = some 2) ∧
    (lookupB ([] : List (Bytes × Bytes)) (packI32 3 ++ packI32 (-7)) =
      none) ∧
    ((none : Option Bytes) ≠ some (packI32 3 ++ packI32 (-7))) ∧
    ((([(packI32 3 ++ packI32 (-7), 2)] : List (Bytes × Nat)).map
        Prod.fst).Nodup) ∧
    packet_send_chunk_data (fun _ b => b) (fun b => b) 1 4 (fun _ => 0) 2 0
        ⟨[(packI32 3 ++ packI32 (-7), 2)], [], none, none, []⟩
        (packI32 3 ++ packI32 (-7) ++ [1]) =
      some ⟨⟨delB [(packI32 3 ++ packI32 (-7), 2)]
                (packI32 3 ++ packI32 (-7)), [],
              some (packI32 3 ++ packI32 (-7)), some [], []⟩,
            [(0, packI32 3 ++ packI32 (-7))], .raised⟩ :=
  ⟨by decide, by decide, by decide, by decide,
    (c8_empty_marker_uncached_retires (fun _ b => b) (fun b => b) 1 4
      (fun _ => 0) 2 0 ⟨[(packI32 3 ++ packI32 (-7), 2)], [], none, none, []⟩
      3 (-7) 2 (by decide) (by decide) (by decide) (by decide) (by decide)
      (by decide) (by decide) (by decide) (by decide)).1⟩

end Eastwood
